import Mathlib

/-!
# The Monty interpreter (`monty.c`)

A shallow embedding of `main`, `push`, `pall`, `free_stack` and `is_number`, followed by
the properties of the interpreter that are established about it.

Conventions of the embedding.

* A C string is the list of its characters before the terminating NUL; a `char *` that may be
  null is an `Option CStr`.
* The heap of `stack_t` nodes is a list of cells indexed by address; a cell is `none` once it
  has been passed to `free`.  A `stack_t *` is an `Option Nat` (`none` is `NULL`).
* `malloc` succeeds or fails as an oracle `avail : Nat → Bool` says, indexed by the number of
  earlier calls.
* Standard output and the error stream are the strings written so far.
* The position that `strtok` saves between calls is passed explicitly.
* `unsigned int` is a natural number reduced modulo `2 ^ 32`.
* A run ends in a `Result`: control goes on, the process exits with a status, the C standard
  leaves the behaviour undefined, or a loop never ends.
-/

namespace Monty

/-! ## Data model -/

/-- A C string: its characters before the terminating NUL. -/
abbrev CStr := List Char

/-- Modelled from the spec: the node type `stack_t` is declared in `monty.h`, which is not among
the sources.  The spec gives each node a 32-bit signed integer value, a link to the next-older
node and a back-link to the next-newer node; the code names them `n`, `next` and `prev`. -/
structure stack_t where
  n : Int
  prev : Option Nat
  next : Option Nat
deriving DecidableEq

/-- The heap of nodes: the cell at address `a` is `some nd` while allocated, `none` once freed. -/
abbrev Heap := List (Option stack_t)

/-- The state of the process. -/
structure State where
  /-- the nodes obtained from `malloc` -/
  heap : Heap
  /-- the global variable `stack`, the head of the chain -/
  stack : Option Nat
  /-- what has been written to standard output -/
  out : String
  /-- what has been written to the error stream -/
  err : String
  /-- whether the buffer `line` filled by `getline` is held -/
  line : Bool
  /-- whether `file` is open -/
  file : Bool
  /-- the number of calls of `malloc` made so far -/
  mallocs : Nat
deriving DecidableEq

/-- How a piece of the program ends. -/
inductive Result where
  /-- control reaches the end of the piece -/
  | running (st : State)
  /-- the process ends through `exit (status)` or a `return` from `main` -/
  | exited (status : Int) (st : State)
  /-- the C standard leaves the behaviour undefined (in practice the process crashes) -/
  | undefined (st : State)
  /-- a loop never ends -/
  | diverges (st : State)
deriving DecidableEq

/-- Modelled from the spec: the global `stack` is declared outside `monty.c`; by the spec the
stack "starts empty/null".  Nothing is allocated, written, or open. -/
def init : State :=
  { heap := [], stack := none, out := "", err := "", line := false, file := false, mallocs := 0 }

/-! ## The C library -/

/-- The delimiter set `" \n"` given to `strtok`. -/
def delim (c : Char) : Bool := c == ' ' || c == '\n'

/-- The call `strtok (_, " \n")` scanning from `s`: the token found (`none` is `NULL`) and the
position saved for the next call.  Leading delimiters are skipped; the token runs to the next
delimiter, which is overwritten by NUL, and the scan resumes behind it. -/
def strtok (s : CStr) : Option CStr × CStr :=
  match s.dropWhile delim with
  | [] => (none, [])
  | c :: cs =>
    (some ((c :: cs).takeWhile (fun x => !delim x)),
      ((c :: cs).dropWhile (fun x => !delim x)).drop 1)

/-- The successive results of `getline` on the content of a file: each line ends with its
newline, except a last line that the file does not terminate. -/
def getlines : List Char → List (List Char)
  | [] => []
  | c :: cs =>
    if c = '\n' then [c] :: getlines cs
    else
      match getlines cs with
      | [] => [[c]]
      | l :: ls => (c :: l) :: ls

/-- The C string that starts a buffer: the characters before the first NUL. -/
def cstr (buf : List Char) : CStr := buf.takeWhile (fun c => c != '\x00')

/-- The function `isspace` in the C locale. -/
def isspace (c : Char) : Bool :=
  c == ' ' || c == '\t' || c == '\n' || c == '\x0b' || c == '\x0c' || c == '\r'

/-- The value of the leading decimal digits of `s`, continuing from `acc`. -/
def digits_value : Nat → CStr → Nat
  | acc, [] => acc
  | acc, c :: cs =>
    if '0' ≤ c ∧ c ≤ '9' then digits_value (acc * 10 + (c.toNat - 48)) cs else acc

/-- The number that `atoi` reads: white space, an optional sign, decimal digits. -/
def atoi_value (s : CStr) : Int :=
  match s.dropWhile isspace with
  | '-' :: r => - (digits_value 0 r : Int)
  | '+' :: r => (digits_value 0 r : Int)
  | r => (digits_value 0 r : Int)

/-- The function `atoi`; `none` where the C standard leaves the behaviour undefined: a null
argument, or a value that an `int` cannot represent. -/
def atoi : Option CStr → Option Int
  | none => none
  | some s =>
    if -2147483648 ≤ atoi_value s ∧ atoi_value s ≤ 2147483647 then some (atoi_value s) else none

/-- The conversion `%d` applied to an `int`. -/
def fmt_d (i : Int) : String := toString i

/-- The `int` that `%d` reads when it is handed the `unsigned int` `u` (two's complement). -/
def as_int (u : Nat) : Int := if u < 2147483648 then (u : Int) else (u : Int) - 4294967296

/-- The function `malloc (sizeof (stack_t))`: the address of a fresh cell, or `NULL`. -/
def malloc (avail : Nat → Bool) (st : State) : Option Nat × State :=
  if avail st.mallocs then
    (some st.heap.length,
      { st with heap := st.heap ++ [some ⟨0, none, none⟩], mallocs := st.mallocs + 1 })
  else (none, { st with mallocs := st.mallocs + 1 })

/-! ## The functions of `monty.c` -/

/-- The loop of `is_number`: 0 at the first character outside `'0'..'9'`, 1 at the end. -/
def is_number_loop : CStr → Int
  | [] => 1
  | c :: cs => if c < '0' ∨ c > '9' then 0 else is_number_loop cs

/-- The function `is_number`. -/
def is_number : Option CStr → Int
  | none => 0
  | some [] => 0
  | some (c :: cs) => is_number_loop (c :: cs)

/-- The loop of `free_stack` from `current`, on the heap: the heap once every node of the chain
is freed, `none` if `current->next` reads a cell that is not allocated.  An iteration frees one
allocated cell, so a fuel above the number of cells is never used up. -/
def free_loop : Nat → Heap → Option Nat → Option Heap
  | _, heap, none => some heap
  | 0, _, some _ => none
  | fuel + 1, heap, some a =>
    match heap[a]? with
    | some (some nd) => free_loop fuel (heap.set a none) nd.next
    | _ => none

/-- The function `free_stack (&stack)`. -/
def free_stack (st : State) : Result :=
  match free_loop (st.heap.length + 1) st.heap st.stack with
  | some heap => .running { st with heap := heap, stack := none }
  | none => .undefined st

/-- The loop of `pall` from `current`.  The heap is only read, so once more iterations have
run than the heap has cells a cell has been visited twice and the loop never ends. -/
def pall_loop : Nat → State → Option Nat → Result
  | _, st, none => .running st
  | 0, st, some _ => .diverges st
  | fuel + 1, st, some a =>
    match st.heap[a]? with
    | some (some nd) => pall_loop fuel { st with out := st.out ++ fmt_d nd.n ++ "\n" } nd.next
    | _ => .undefined st

/-- The function `pall (&stack, line_number)`. -/
def pall (st : State) (_line_number : Nat) : Result :=
  pall_loop (st.heap.length + 1) st st.stack

/-- The function `push (&stack, line_number)`, called with `strtok` at the position `save`. -/
def push (avail : Nat → Bool) (save : CStr) (st : State) (_line_number : Nat) : Result :=
  let arg := (strtok save).1
  match atoi arg with
  | none => .undefined st
  | some value =>
    match malloc avail st with
    | (none, st1) =>
      match free_stack { st1 with err := st1.err ++ "Error: malloc failed\n" } with
      | .running st2 => .exited 1 st2
      | r => r
    | (some new_node, st1) =>
      let heap1 := st1.heap.set new_node (some ⟨value, none, st1.stack⟩)
      match st1.stack with
      | none => .running { st1 with heap := heap1, stack := some new_node }
      | some head =>
        match heap1[head]? with
        | some (some nd) =>
          .running { st1 with
            heap := heap1.set head (some { nd with prev := some new_node }),
            stack := some new_node }
        | _ => .undefined st1

/-- The sequence `free (line); free_stack (&stack); fclose (file); exit (status)`. -/
def cleanup_exit (status : Int) (st : State) : Result :=
  match free_stack { st with line := false } with
  | .running st1 => .exited status { st1 with file := false }
  | r => r

/-- The body of the loop of `main` for one line read, `line_number` already incremented. -/
def loop_body (avail : Nat → Bool) (st : State) (line_number : Nat) (line : List Char) :
    Result :=
  match strtok (cstr line) with
  | (none, _) => .running st
  | (some opcode, save) =>
    if opcode.head? = some '#' then .running st
    else if opcode = "push".toList then
      match strtok save with
      | (none, _) =>
        cleanup_exit 1
          { st with err := st.err ++ "L" ++ fmt_d (as_int line_number) ++ ": usage: push integer\n" }
      | (some arg, save1) =>
        if is_number (some arg) = 0 then
          cleanup_exit 1
            { st with
              err := st.err ++ "L" ++ fmt_d (as_int line_number) ++ ": usage: push integer\n" }
        else push avail save1 st line_number
    else if opcode = "pall".toList then pall st line_number
    else
      cleanup_exit 1
        { st with
          err := st.err ++ "L" ++ fmt_d (as_int line_number) ++ ": unknown instruction "
            ++ String.mk opcode ++ "\n" }

/-- The loop `while (getline (...) != -1)` of `main` over the lines still to be read. -/
def main_loop (avail : Nat → Bool) : State → Nat → List (List Char) → Result
  | st, _, [] => .running st
  | st, line_number, line :: rest =>
    match loop_body avail { st with line := true } ((line_number + 1) % 4294967296) line with
    | .running st1 => main_loop avail st1 ((line_number + 1) % 4294967296) rest
    | r => r

/-- The function `main`: `argv` are the command-line arguments (`argc` is their number) and
`fopen` gives the content of the files that can be opened for reading. -/
def main (avail : Nat → Bool) (fopen : CStr → Option (List Char)) (argv : List CStr) : Result :=
  if argv.length ≠ 2 then .exited 1 { init with err := init.err ++ "USAGE: monty file\n" }
  else
    match fopen (argv.getD 1 []) with
    | none =>
      .exited 1
        { init with
          err := init.err ++ "Error: Can't open file " ++ String.mk (argv.getD 1 []) ++ "\n" }
    | some content =>
      match main_loop avail { init with file := true } 0 (getlines content) with
      | .running st => cleanup_exit 0 st
      | r => r

/-! ## Running a program text -/

/-- A `malloc` that never fails. -/
def always : Nat → Bool := fun _ => true

/-- A file system holding the one file `name` with content `text`. -/
def one_file (name : CStr) (text : List Char) : CStr → Option (List Char) :=
  fun p => if p = name then some text else none

/-- The run `monty m` where the file `m` holds the characters `text` and `malloc` never fails. -/
def run_text (text : List Char) : Result :=
  main always (one_file ['m'] text) [['m', 'o', 'n', 't', 'y'], ['m']]

/-- The run `monty m` where the file `m` holds `text` and `malloc` never fails. -/
def run (text : String) : Result := run_text text.toList

/-! ## Notions used to state the properties -/

/-- The opcode of a line: the first token that `main` takes from it, `none` if there is none. -/
def first_token (line : List Char) : Option CStr := (strtok (cstr line)).1

/-- The argument of a line: the token after the opcode, read as `main` reads it after `push`. -/
def second_token (line : List Char) : Option CStr := (strtok (strtok (cstr line)).2).1

/-- A line that `main` skips: it has no token, or its first token starts with `#`. -/
def is_noop (line : List Char) : Bool :=
  match first_token line with
  | none => true
  | some t => t.head? == some '#'

/-- The pointer `p` heads a chain of allocated nodes that ends in `NULL`; the list gives the
address and the value of each node, from the head on. -/
def is_chain (heap : Heap) : Option Nat → List (Nat × Int) → Prop
  | p, [] => p = none
  | p, c :: cs =>
    p = some c.1 ∧ ∃ nd, heap[c.1]? = some (some nd) ∧ nd.n = c.2 ∧ is_chain heap nd.next cs

/-- The heap once the cells at the addresses `as` are freed. -/
def release (heap : Heap) (as : List Nat) : Heap := as.foldl (fun h a => h.set a none) heap

/-- The text that `pall` prints for the values `vs`: one decimal value per line. -/
def print_all : List Int → String
  | [] => ""
  | v :: vs => fmt_d v ++ "\n" ++ print_all vs

/-- The diagnostic of an invalid `push` at line `k`. -/
def usage_diag (k : Nat) : String := "L" ++ toString k ++ ": usage: push integer\n"

/-- The diagnostic of an unknown opcode at line `k`. -/
def unknown_diag (k : Nat) (opcode : CStr) : String :=
  "L" ++ toString k ++ ": unknown instruction " ++ String.mk opcode ++ "\n"

/-- Two texts of the error stream are the same up to the line number of one diagnostic. -/
def same_diag (e e1 : String) : Prop :=
  e = e1 ∨ ∃ (pre tail : String) (a b : Int),
    e = pre ++ "L" ++ fmt_d a ++ tail ∧ e1 = pre ++ "L" ++ fmt_d b ++ tail

/-- Two states have the same nodes, the same stack, the same standard output, the same file
status and the same number of allocations, and the same diagnostics up to a line number. -/
def agree (s t : State) : Prop :=
  s.heap = t.heap ∧ s.stack = t.stack ∧ s.out = t.out ∧ s.file = t.file ∧
    s.mallocs = t.mallocs ∧ same_diag s.err t.err

/-- Two results end the same way (the same exit status, if any) in states that agree. -/
def same_effect : Result → Result → Prop
  | .running s, .running t => agree s t
  | .exited a s, .exited b t => a = b ∧ agree s t
  | .undefined s, .undefined t => agree s t
  | .diverges s, .diverges t => agree s t
  | _, _ => False

/-- The global `stack` heads a chain of allocated nodes that ends in `NULL`. -/
def stack_ok (st : State) : Prop := ∃ cs, is_chain st.heap st.stack cs

/-- The token after the argument of a line: the one that `push` itself takes from `strtok` and
hands to `atoi`. -/
def third_token (line : List Char) : Option CStr :=
  (strtok (strtok (strtok (cstr line)).2).2).1

/-- A token: a non-empty string without space, newline or NUL. -/
def is_token (t : CStr) : Prop := t ≠ [] ∧ ∀ c ∈ t, delim c = false ∧ c ≠ '\x00'

/-- What may follow a token in a line: nothing, or text that starts with a space or a newline. -/
def ends_token (tail : List Char) : Prop := tail = [] ∨ ∃ d r, tail = d :: r ∧ delim d = true

/-- The pointer `p` heads a doubly linked chain of allocated nodes that ends in `NULL`: the
back-link of its first node is `back`, and the back-link of every further node is the address
of the node before it.  The list gives the address and the value of each node. -/
def dl_chain (heap : Heap) : Option Nat → Option Nat → List (Nat × Int) → Prop
  | _, p, [] => p = none
  | back, p, c :: cs =>
    p = some c.1 ∧ ∃ nd, heap[c.1]? = some (some nd) ∧ nd.n = c.2 ∧ nd.prev = back ∧
      dl_chain heap (some c.1) nd.next cs

/-- The states reached from an empty stack by `n` calls of `push` that return. -/
inductive after_pushes (avail : Nat → Bool) : Nat → State → Prop where
  | empty (st : State) : st.stack = none → after_pushes avail 0 st
  | step (n : Nat) (st st1 : State) (save : CStr) (line_number : Nat) :
    after_pushes avail n st → push avail save st line_number = .running st1 →
    after_pushes avail (n + 1) st1

/-- The stack is empty and every node is released: the head is `NULL` and no cell of the heap
is allocated. -/
def released (st : State) : Prop := st.stack = none ∧ ∀ c ∈ st.heap, c = none

/-- The global `stack` heads a chain that holds every allocated node. -/
def owned (st : State) : Prop :=
  ∃ cs, is_chain st.heap st.stack cs ∧
    ∀ (a : Nat) (nd : stack_t), st.heap[a]? = some (some nd) → a ∈ cs.map Prod.fst

/-- A result that is an exit of the process with the stack empty and every node released, or
behaviour that the C standard leaves undefined. -/
def exits_released : Result → Prop
  | .exited _ st => released st
  | .undefined _ => True
  | _ => False

/-- A result of the loop of `main` that keeps every allocated node in the chain of `stack` while
control goes on, and that leaves the stack empty and every node released when the process
exits. -/
def keeps_owned : Result → Prop
  | .running st => owned st
  | .exited _ st => released st
  | .undefined _ => True
  | .diverges _ => False

/-- A `malloc` that always fails. -/
def never : Nat → Bool := fun _ => false

/-! ## `is_number` -/

theorem is_number_loop_eq_one (s : CStr) :
    is_number_loop s = 1 ↔ ∀ c ∈ s, '0' ≤ c ∧ c ≤ '9' := by
  induction s with
  | nil => simp [is_number_loop]
  | cons c cs ih =>
    by_cases h : c < '0' ∨ c > '9'
    · have hn : ¬ ('0' ≤ c ∧ c ≤ '9') := by
        rintro ⟨h0, h9⟩
        rcases h with h | h
        · exact absurd h0 (not_le.mpr h)
        · exact absurd h9 (not_le.mpr h)
      simp [is_number_loop, h, hn]
    · have hy : '0' ≤ c ∧ c ≤ '9' := by
        constructor
        · exact not_lt.mp (fun h0 => h (Or.inl h0))
        · exact not_lt.mp (fun h9 => h (Or.inr h9))
      simp [is_number_loop, h, hy, ih]

theorem is_number_loop_zero_or_one (s : CStr) : is_number_loop s = 1 ∨ is_number_loop s = 0 := by
  induction s with
  | nil => simp [is_number_loop]
  | cons c cs ih =>
    by_cases h : c < '0' ∨ c > '9'
    · simp [is_number_loop, h]
    · simpa [is_number_loop, h] using ih

/-- C3: `is_number` returns 1 exactly for a non-null, non-empty string all of whose characters
are ASCII digits `'0'..'9'`; it returns 0 otherwise, in particular for a null or an empty
string. -/
theorem is_number_iff (p : Option CStr) :
    (is_number p = 1 ↔ ∃ s, p = some s ∧ s ≠ [] ∧ ∀ c ∈ s, '0' ≤ c ∧ c ≤ '9') ∧
    (is_number p = 1 ∨ is_number p = 0) ∧
    is_number none = 0 ∧ is_number (some []) = 0 := by
  refine ⟨?_, ?_, rfl, rfl⟩
  · cases p with
    | none => simp [is_number]
    | some s =>
      cases s with
      | nil => simp [is_number]
      | cons c cs =>
        simp only [is_number, is_number_loop_eq_one]
        constructor
        · intro h
          exact ⟨c :: cs, rfl, by simp, h⟩
        · rintro ⟨s, hs, -, h⟩
          cases hs
          exact h
  · cases p with
    | none => simp [is_number]
    | some s =>
      cases s with
      | nil => simp [is_number]
      | cons c cs => exact is_number_loop_zero_or_one (c :: cs)

/-! ## Chains of nodes -/

theorem is_chain_agree {heap heap1 : Heap}
    (h : ∀ (a : Nat) (nd : stack_t), heap[a]? = some (some nd) →
      ∃ nd1 : stack_t, heap1[a]? = some (some nd1) ∧ nd1.n = nd.n ∧ nd1.next = nd.next) :
    ∀ (cs : List (Nat × Int)) (p : Option Nat), is_chain heap p cs → is_chain heap1 p cs := by
  intro cs
  induction cs with
  | nil => intro p hp; exact hp
  | cons c cs ih =>
    rintro p ⟨hp, nd, hnd, hn, hrest⟩
    obtain ⟨nd1, h1, h2, h3⟩ := h c.1 nd hnd
    exact ⟨hp, nd1, h1, h2.trans hn, h3 ▸ ih _ hrest⟩

theorem is_chain_functional {heap : Heap} :
    ∀ (cs ds : List (Nat × Int)) (p : Option Nat),
      is_chain heap p cs → is_chain heap p ds → cs = ds := by
  intro cs
  induction cs with
  | nil =>
    intro ds p hc hd
    cases ds with
    | nil => rfl
    | cons d ds =>
      have h1 : p = none := hc
      have h2 : p = some d.1 := hd.1
      rw [h1] at h2
      cases h2
  | cons c cs ih =>
    intro ds p hc hd
    cases ds with
    | nil =>
      have h1 : p = none := hd
      have h2 : p = some c.1 := hc.1
      rw [h1] at h2
      cases h2
    | cons d ds =>
      obtain ⟨hp, nd, hnd, hn, hrest⟩ := hc
      obtain ⟨hp1, nd1, hnd1, hn1, hrest1⟩ := hd
      have hcd : c.1 = d.1 := Option.some.inj (hp.symm.trans hp1)
      rw [← hcd, hnd] at hnd1
      have hnn : nd = nd1 := Option.some.inj (Option.some.inj hnd1)
      subst hnn
      have htl : cs = ds := ih ds _ hrest hrest1
      have hv : c.2 = d.2 := hn.symm.trans hn1
      rw [htl, Prod.ext hcd hv]

theorem is_chain_suffix {heap : Heap} :
    ∀ (cs : List (Nat × Int)) (c : Nat × Int) (ds : List (Nat × Int)) (p : Option Nat),
      is_chain heap p (cs ++ c :: ds) → is_chain heap (some c.1) (c :: ds) := by
  intro cs
  induction cs with
  | nil =>
    intro c ds p h
    exact ⟨rfl, h.2⟩
  | cons b cs ih =>
    rintro c ds p ⟨-, nd, -, -, hrest⟩
    exact ih c ds _ hrest

theorem is_chain_nodup {heap : Heap} :
    ∀ (cs : List (Nat × Int)) (p : Option Nat),
      is_chain heap p cs → (cs.map Prod.fst).Nodup := by
  intro cs
  induction cs with
  | nil => intro p _; simp
  | cons c cs ih =>
    intro p h
    obtain ⟨hp, nd, hnd, hn, hrest⟩ := h
    rw [List.map_cons, List.nodup_cons]
    refine ⟨?_, ih _ hrest⟩
    intro hmem
    obtain ⟨d, hd, hdc⟩ := List.mem_map.mp hmem
    obtain ⟨s, t, hst⟩ := List.mem_iff_append.mp hd
    have h1 : is_chain heap (some d.1) (d :: t) := is_chain_suffix s d t _ (hst ▸ hrest)
    have h2 : is_chain heap (some d.1) (c :: cs) := by
      rw [hdc]
      exact ⟨rfl, nd, hnd, hn, hrest⟩
    have h3 : d :: t = c :: cs := is_chain_functional _ _ _ h1 h2
    have h4 := congrArg List.length h3
    rw [hst] at h4
    simp at h4
    omega

theorem is_chain_lt {heap : Heap} :
    ∀ (cs : List (Nat × Int)) (p : Option Nat),
      is_chain heap p cs → ∀ a ∈ cs.map Prod.fst, a < heap.length := by
  intro cs
  induction cs with
  | nil => intro p _ a ha; simp at ha
  | cons c cs ih =>
    rintro p ⟨-, nd, hnd, -, hrest⟩ a ha
    rw [List.map_cons, List.mem_cons] at ha
    rcases ha with ha | ha
    · rw [ha]
      exact (List.getElem?_eq_some.mp hnd).1
    · exact ih _ hrest a ha

theorem is_chain_length_le {heap : Heap} (cs : List (Nat × Int)) (p : Option Nat)
    (h : is_chain heap p cs) : cs.length ≤ heap.length := by
  have hsub : cs.map Prod.fst ⊆ List.range heap.length := by
    intro a ha
    exact List.mem_range.mpr (is_chain_lt cs p h a ha)
  have := (List.subperm_of_subset (is_chain_nodup cs p h) hsub).length_le
  simpa using this

theorem is_chain_set {heap : Heap} (a : Nat) (x : Option stack_t) :
    ∀ (cs : List (Nat × Int)) (p : Option Nat),
      a ∉ cs.map Prod.fst → is_chain heap p cs → is_chain (heap.set a x) p cs := by
  intro cs
  induction cs with
  | nil => intro p _ hp; exact hp
  | cons c cs ih =>
    rintro p ha ⟨hp, nd, hnd, hn, hrest⟩
    rw [List.map_cons, List.mem_cons, not_or] at ha
    refine ⟨hp, nd, ?_, hn, ih _ ha.2 hrest⟩
    rw [List.getElem?_set_ne ha.1]
    exact hnd

/-! ## `pall`, `free_stack` and `push` on a chain -/

theorem pall_loop_chain :
    ∀ (cs : List (Nat × Int)) (fuel : Nat) (st : State) (p : Option Nat),
      is_chain st.heap p cs → cs.length ≤ fuel →
      pall_loop fuel st p = .running { st with out := st.out ++ print_all (cs.map Prod.snd) } := by
  intro cs
  induction cs with
  | nil =>
    intro fuel st p hp _
    have hp1 : p = none := hp
    subst hp1
    cases fuel <;> simp [pall_loop, print_all]
  | cons c cs ih =>
    rintro fuel st p ⟨hp, nd, hnd, hn, hrest⟩ hlen
    subst hp
    cases fuel with
    | zero => simp at hlen
    | succ fuel =>
      have hlen1 : cs.length ≤ fuel := by simpa using hlen
      have hstep : pall_loop (fuel + 1) st (some c.1) =
          pall_loop fuel { st with out := st.out ++ fmt_d nd.n ++ "\n" } nd.next := by
        simp only [pall_loop, hnd]
      rw [hstep, ih fuel { st with out := st.out ++ fmt_d nd.n ++ "\n" } nd.next hrest hlen1, hn]
      simp [print_all, String.append_assoc]

theorem pall_chain (st : State) (line_number : Nat) (cs : List (Nat × Int))
    (h : is_chain st.heap st.stack cs) :
    pall st line_number = .running { st with out := st.out ++ print_all (cs.map Prod.snd) } :=
  pall_loop_chain cs _ st st.stack h
    (Nat.le_succ_of_le (is_chain_length_le cs st.stack h))

theorem free_loop_chain :
    ∀ (cs : List (Nat × Int)) (fuel : Nat) (heap : Heap) (p : Option Nat),
      is_chain heap p cs → cs.length ≤ fuel →
      free_loop fuel heap p = some (release heap (cs.map Prod.fst)) := by
  intro cs
  induction cs with
  | nil =>
    intro fuel heap p hp _
    have hp1 : p = none := hp
    subst hp1
    cases fuel <;> simp [free_loop, release]
  | cons c cs ih =>
    intro fuel heap p h hlen
    have hnodup := is_chain_nodup _ _ h
    obtain ⟨hp, nd, hnd, hn, hrest⟩ := h
    subst hp
    rw [List.map_cons, List.nodup_cons] at hnodup
    cases fuel with
    | zero => simp at hlen
    | succ fuel =>
      have hlen1 : cs.length ≤ fuel := by simpa using hlen
      have hstep : free_loop (fuel + 1) heap (some c.1) =
          free_loop fuel (heap.set c.1 none) nd.next := by
        simp only [free_loop, hnd]
      rw [hstep, ih fuel _ nd.next (is_chain_set c.1 none cs _ hnodup.1 hrest) hlen1]
      rfl

theorem free_stack_chain (st : State) (cs : List (Nat × Int))
    (h : is_chain st.heap st.stack cs) :
    free_stack st =
      .running { st with heap := release st.heap (cs.map Prod.fst), stack := none } := by
  unfold free_stack
  rw [free_loop_chain cs _ st.heap st.stack h
    (Nat.le_succ_of_le (is_chain_length_le cs st.stack h))]

theorem cleanup_exit_chain (status : Int) (st : State) (cs : List (Nat × Int))
    (h : is_chain st.heap st.stack cs) :
    cleanup_exit status st =
      .exited status
        { st with
          heap := release st.heap (cs.map Prod.fst), stack := none, line := false,
          file := false } := by
  unfold cleanup_exit
  rw [free_stack_chain { st with line := false } cs h]

theorem push_chain (avail : Nat → Bool) (save : CStr) (st : State) (line_number : Nat)
    (cs : List (Nat × Int)) (v : Int) (hc : is_chain st.heap st.stack cs)
    (hv : atoi (strtok save).1 = some v) (ha : avail st.mallocs = true) :
    ∃ heap1 : Heap,
      push avail save st line_number =
        .running
          { st with heap := heap1, stack := some st.heap.length, mallocs := st.mallocs + 1 } ∧
      is_chain heap1 (some st.heap.length) ((st.heap.length, v) :: cs) := by
  obtain ⟨heap, stack, out, err, line, file, mallocs⟩ := st
  simp only at hc ha
  cases stack with
  | none =>
    refine ⟨(heap ++ [some (⟨0, none, none⟩ : stack_t)]).set heap.length
      (some ⟨v, none, none⟩), ?_, ?_⟩
    · simp [push, hv, malloc, ha]
    · cases cs with
      | nil =>
        refine ⟨rfl, ⟨v, none, none⟩, ?_, rfl, rfl⟩
        simp
      | cons c cs => exact absurd hc.1 (by simp)
  | some head =>
    cases cs with
    | nil => exact absurd hc (by simp [is_chain])
    | cons c cs =>
      obtain ⟨hp, nd, hnd, hn, hrest⟩ := hc
      have hhead : head = c.1 := Option.some.inj hp
      subst hhead
      have hlt : c.1 < heap.length := (List.getElem?_eq_some.mp hnd).1
      have hne : heap.length ≠ c.1 := Nat.ne_of_gt hlt
      have h1 : ((heap ++ [some (⟨0, none, none⟩ : stack_t)]).set heap.length
          (some ⟨v, none, some c.1⟩))[c.1]? = some (some nd) := by
        rw [List.getElem?_set_ne hne, List.getElem?_append_left hlt, hnd]
      refine ⟨((heap ++ [some (⟨0, none, none⟩ : stack_t)]).set heap.length
          (some ⟨v, none, some c.1⟩)).set c.1 (some { nd with prev := some heap.length }), ?_, ?_⟩
      · simp only [push, hv, malloc, ha, if_true, h1]
      · refine ⟨rfl, ⟨v, none, some c.1⟩, ?_, rfl, ?_⟩
        · rw [List.getElem?_set_ne (Ne.symm hne)]
          simp
        · refine is_chain_agree ?_ (c :: cs) _ ⟨rfl, nd, hnd, hn, hrest⟩
          intro a nda hnda
          have halt : a < heap.length := (List.getElem?_eq_some.mp hnda).1
          by_cases hac : c.1 = a
          · subst hac
            rw [hnd] at hnda
            have : nd = nda := Option.some.inj (Option.some.inj hnda)
            subst this
            refine ⟨{ nd with prev := some heap.length }, ?_, rfl, rfl⟩
            rw [List.getElem?_set_self]
            simpa using Nat.lt_succ_of_lt hlt
          · refine ⟨nda, ?_, rfl, rfl⟩
            rw [List.getElem?_set_ne hac, List.getElem?_set_ne (Nat.ne_of_gt halt),
              List.getElem?_append_left halt, hnda]

/-! ## The loop of `main` -/

theorem loop_body_noop (avail : Nat → Bool) (st : State) (line_number : Nat) (line : List Char)
    (h : is_noop line = true) : loop_body avail st line_number line = .running st := by
  unfold is_noop first_token at h
  unfold loop_body
  rcases hs : strtok (cstr line) with ⟨_ | opcode, save⟩
  · rfl
  · rw [hs] at h
    simp only [beq_iff_eq] at h
    simp [h]

theorem main_loop_append (avail : Nat → Bool) :
    ∀ (l1 l2 : List (List Char)) (st : State) (line_number : Nat),
      main_loop avail st line_number (l1 ++ l2) =
        match main_loop avail st line_number l1 with
        | .running st1 => main_loop avail st1 ((line_number + l1.length) % 4294967296) l2
        | r => r := by
  intro l1
  induction l1 with
  | nil =>
    intro l2 st line_number
    cases l2 with
    | nil => simp [main_loop]
    | cons l l2 => simp [main_loop]
  | cons l l1 ih =>
    intro l2 st line_number
    simp only [List.cons_append, main_loop, List.length_cons]
    cases hb : loop_body avail { st with line := true } ((line_number + 1) % 4294967296) l with
    | running st1 =>
      have hmod : ((line_number + 1) % 4294967296 + l1.length) % 4294967296 =
          (line_number + (l1.length + 1)) % 4294967296 := by omega
      show main_loop avail st1 ((line_number + 1) % 4294967296) (l1 ++ l2) = _
      rw [ih, hmod]
    | exited a st1 => rfl
    | undefined st1 => rfl
    | diverges st1 => rfl

theorem main_loop_noop (avail : Nat → Bool) :
    ∀ (lines : List (List Char)) (st : State) (line_number : Nat),
      (∀ l ∈ lines, is_noop l = true) →
      main_loop avail st line_number lines =
        .running { st with line := st.line || !lines.isEmpty } := by
  intro lines
  induction lines with
  | nil => intro st line_number _; simp [main_loop]
  | cons l lines ih =>
    intro st line_number h
    simp only [main_loop]
    rw [loop_body_noop avail _ _ l (h l (List.mem_cons_self _ _))]
    simp only []
    rw [ih _ _ (fun x hx => h x (List.mem_cons_of_mem _ hx))]
    simp

theorem loop_body_push_bad (avail : Nat → Bool) (st : State) (line_number : Nat)
    (line : List Char) (h1 : first_token line = some "push".toList)
    (h2 : second_token line = none ∨ is_number (second_token line) = 0) :
    loop_body avail st line_number line =
      cleanup_exit 1
        { st with
          err := st.err ++ "L" ++ fmt_d (as_int line_number) ++ ": usage: push integer\n" } := by
  unfold first_token at h1
  unfold second_token at h2
  unfold loop_body
  rcases hs : strtok (cstr line) with ⟨_ | opcode, save⟩
  · rw [hs] at h1
    cases h1
  · rw [hs] at h1 h2
    simp only [Option.some.injEq] at h1
    subst h1
    simp only at h2
    rcases hs2 : strtok save with ⟨_ | arg, save1⟩
    · simp [hs2]
    · rw [hs2] at h2
      simp only at h2
      rcases h2 with h2 | h2
      · cases h2
      · simp [hs2, h2]

theorem loop_body_push_good (avail : Nat → Bool) (st : State) (line_number : Nat)
    (line : List Char) (arg : CStr) (h1 : first_token line = some "push".toList)
    (h2 : second_token line = some arg) (h3 : is_number (some arg) ≠ 0) :
    loop_body avail st line_number line =
      push avail (strtok (strtok (cstr line)).2).2 st line_number := by
  unfold first_token at h1
  unfold second_token at h2
  unfold loop_body
  rcases hs : strtok (cstr line) with ⟨_ | opcode, save⟩
  · rw [hs] at h1
    cases h1
  · rw [hs] at h1 h2
    simp only [Option.some.injEq] at h1
    subst h1
    simp only at h2
    rcases hs2 : strtok save with ⟨_ | arg1, save1⟩
    · rw [hs2] at h2
      cases h2
    · rw [hs2] at h2
      simp only [Option.some.injEq] at h2
      subst h2
      simp [hs2, h3]

theorem loop_body_pall (avail : Nat → Bool) (st : State) (line_number : Nat)
    (line : List Char) (h1 : first_token line = some "pall".toList) :
    loop_body avail st line_number line = pall st line_number := by
  unfold first_token at h1
  unfold loop_body
  rcases hs : strtok (cstr line) with ⟨_ | opcode, save⟩
  · rw [hs] at h1
    cases h1
  · rw [hs] at h1
    simp only [Option.some.injEq] at h1
    subst h1
    simp

theorem loop_body_unknown (avail : Nat → Bool) (st : State) (line_number : Nat)
    (line : List Char) (opcode : CStr) (h1 : first_token line = some opcode)
    (h2 : opcode.head? ≠ some '#') (h3 : opcode ≠ "push".toList) (h4 : opcode ≠ "pall".toList) :
    loop_body avail st line_number line =
      cleanup_exit 1
        { st with
          err := st.err ++ "L" ++ fmt_d (as_int line_number) ++ ": unknown instruction "
            ++ String.mk opcode ++ "\n" } := by
  unfold first_token at h1
  unfold loop_body
  rcases hs : strtok (cstr line) with ⟨_ | opcode1, save⟩
  · rw [hs] at h1
    cases h1
  · rw [hs] at h1
    simp only [Option.some.injEq] at h1
    subst h1
    have h3a : ¬ opcode1 = ['p', 'u', 's', 'h'] := h3
    have h4a : ¬ opcode1 = ['p', 'a', 'l', 'l'] := h4
    simp [h2, h3a, h4a]

theorem free_stack_cases (st : State) :
    (∃ heap1, free_stack st = .running { st with heap := heap1, stack := none }) ∨
      free_stack st = .undefined st := by
  unfold free_stack
  cases free_loop (st.heap.length + 1) st.heap st.stack with
  | none => exact Or.inr rfl
  | some heap1 => exact Or.inl ⟨heap1, rfl⟩

theorem cleanup_exit_cases (status : Int) (st : State) :
    (∃ heap1, cleanup_exit status st =
        .exited status { st with heap := heap1, stack := none, line := false, file := false }) ∨
      cleanup_exit status st = .undefined { st with line := false } := by
  unfold cleanup_exit
  rcases free_stack_cases { st with line := false } with ⟨heap1, h⟩ | h
  · exact Or.inl ⟨heap1, by rw [h]⟩
  · exact Or.inr (by rw [h])

theorem push_cases (avail : Nat → Bool) (save : CStr) (st : State) (line_number : Nat) :
    (∃ st1, push avail save st line_number = .undefined st1) ∨
    (∃ st1, push avail save st line_number = .exited 1 st1 ∧
        st1.err = st.err ++ "Error: malloc failed\n") ∨
    (∃ st1, push avail save st line_number = .running st1 ∧ avail st.mallocs = true ∧
        ∃ v, atoi (strtok save).1 = some v) := by
  obtain ⟨heap, stack, out, err, line, file, mallocs⟩ := st
  simp only [push]
  cases hv : atoi (strtok save).1 with
  | none => exact Or.inl ⟨_, rfl⟩
  | some v =>
    by_cases ha : avail mallocs = true
    · have hm : malloc avail ⟨heap, stack, out, err, line, file, mallocs⟩ =
          (some heap.length,
            ⟨heap ++ [some ⟨0, none, none⟩], stack, out, err, line, file, mallocs + 1⟩) := by
        simp [malloc, ha]
      rw [hm]
      cases stack with
      | none => exact Or.inr (Or.inr ⟨_, rfl, ha, v, rfl⟩)
      | some head =>
        simp only []
        split
        · exact Or.inr (Or.inr ⟨_, rfl, ha, v, rfl⟩)
        · exact Or.inl ⟨_, rfl⟩
    · have hm : malloc avail ⟨heap, stack, out, err, line, file, mallocs⟩ =
          (none, ⟨heap, stack, out, err, line, file, mallocs + 1⟩) := by
        simp [malloc, ha]
      rw [hm]
      simp only []
      rcases free_stack_cases
        ⟨heap, stack, out, err ++ "Error: malloc failed\n", line, file, mallocs + 1⟩
        with ⟨heap1, h⟩ | h
      · rw [h]
        exact Or.inr (Or.inl ⟨_, rfl, rfl⟩)
      · rw [h]
        exact Or.inl ⟨_, rfl⟩

theorem line_cases (line : List Char) :
    is_noop line = true ∨ ∃ opcode, first_token line = some opcode ∧ opcode.head? ≠ some '#' := by
  unfold is_noop
  cases h : first_token line with
  | none => exact Or.inl rfl
  | some opcode =>
    by_cases hc : opcode.head? = some '#'
    · left
      simp [hc]
    · exact Or.inr ⟨opcode, rfl, hc⟩

theorem cleanup_exit_ne_running (status : Int) (st st1 : State) :
    cleanup_exit status st ≠ .running st1 := by
  rcases cleanup_exit_cases status st with ⟨heap1, h⟩ | h <;> rw [h] <;> simp

theorem loop_body_running (avail : Nat → Bool) (st st1 : State) (line_number : Nat)
    (line : List Char) (h : loop_body avail st line_number line = .running st1)
    (hok : stack_ok st) :
    st1.err = st.err ∧ st1.file = st.file ∧ st1.line = st.line ∧ stack_ok st1 := by
  rcases line_cases line with hn | ⟨opcode, hop, hc⟩
  · rw [loop_body_noop avail st line_number line hn] at h
    cases h
    exact ⟨rfl, rfl, rfl, hok⟩
  · by_cases hpush : opcode = "push".toList
    · subst hpush
      cases h2 : second_token line with
      | none =>
        rw [loop_body_push_bad avail st line_number line hop (Or.inl h2)] at h
        exact absurd h (cleanup_exit_ne_running _ _ _)
      | some arg =>
        by_cases h3 : is_number (some arg) = 0
        · rw [loop_body_push_bad avail st line_number line hop (Or.inr (h2 ▸ h3))] at h
          exact absurd h (cleanup_exit_ne_running _ _ _)
        · rw [loop_body_push_good avail st line_number line arg hop h2 h3] at h
          rcases push_cases avail (strtok (strtok (cstr line)).2).2 st line_number with
            ⟨s, hs⟩ | ⟨s, hs, -⟩ | ⟨s, -, ha, v, hv⟩
          · rw [hs] at h
            cases h
          · rw [hs] at h
            cases h
          · obtain ⟨cs, hcs⟩ := hok
            obtain ⟨heap1, hp, hch⟩ := push_chain avail _ st line_number cs v hcs hv ha
            rw [hp] at h
            cases h
            exact ⟨rfl, rfl, rfl, _, hch⟩
    · by_cases hpall : opcode = "pall".toList
      · subst hpall
        obtain ⟨cs, hcs⟩ := hok
        rw [loop_body_pall avail st line_number line hop, pall_chain st line_number cs hcs] at h
        cases h
        exact ⟨rfl, rfl, rfl, cs, hcs⟩
      · rw [loop_body_unknown avail st line_number line opcode hop hc hpush hpall] at h
        exact absurd h (cleanup_exit_ne_running _ _ _)

theorem main_loop_running (avail : Nat → Bool) :
    ∀ (lines : List (List Char)) (st st1 : State) (line_number : Nat),
      main_loop avail st line_number lines = .running st1 → stack_ok st →
      st1.err = st.err ∧ st1.file = st.file ∧ stack_ok st1 := by
  intro lines
  induction lines with
  | nil =>
    intro st st1 line_number h hok
    simp only [main_loop] at h
    cases h
    exact ⟨rfl, rfl, hok⟩
  | cons l lines ih =>
    intro st st1 line_number h hok
    simp only [main_loop] at h
    cases hb : loop_body avail { st with line := true } ((line_number + 1) % 4294967296) l with
    | running s =>
      rw [hb] at h
      obtain ⟨h1, h2, -, h4⟩ := loop_body_running avail _ s _ l hb hok
      obtain ⟨h5, h6, h7⟩ := ih s st1 _ h h4
      exact ⟨h5.trans h1, h6.trans h2, h7⟩
    | exited a s => rw [hb] at h; cases h
    | undefined s => rw [hb] at h; cases h
    | diverges s => rw [hb] at h; cases h

theorem stack_ok_init (b c : Bool) : stack_ok { init with line := b, file := c } :=
  ⟨[], rfl⟩

theorem main_loop_at (avail : Nat → Bool) (st0 st : State) (line_number : Nat)
    (pre : List (List Char)) (line : List Char) (post : List (List Char))
    (hpre : main_loop avail st0 line_number pre = .running st) :
    main_loop avail st0 line_number (pre ++ line :: post) =
      match loop_body avail { st with line := true }
          (((line_number + pre.length) % 4294967296 + 1) % 4294967296) line with
      | .running st1 =>
        main_loop avail st1 (((line_number + pre.length) % 4294967296 + 1) % 4294967296) post
      | r => r := by
  rw [main_loop_append, hpre]
  simp only [main_loop]

theorem main_opened (avail : Nat → Bool) (fopen : CStr → Option (List Char)) (prog name : CStr)
    (text : List Char) (hopen : fopen name = some text) :
    main avail fopen [prog, name] =
      match main_loop avail { init with file := true } 0 (getlines text) with
      | .running st => cleanup_exit 0 st
      | r => r := by
  simp [main, hopen]

theorem fmt_line_number (n : Nat) (h : n + 1 < 2147483648) :
    fmt_d (as_int (((0 + n) % 4294967296 + 1) % 4294967296)) = toString (n + 1) := by
  have h1 : ((0 + n) % 4294967296 + 1) % 4294967296 = n + 1 := by omega
  rw [h1]
  unfold as_int
  rw [if_pos h]
  rfl

theorem main_at (avail : Nat → Bool) (fopen : CStr → Option (List Char)) (prog name : CStr)
    (text : List Char) (pre : List (List Char)) (line : List Char) (post : List (List Char))
    (st : State) (status : Int) (st1 : State) (hopen : fopen name = some text)
    (hlines : getlines text = pre ++ line :: post)
    (hpre : main_loop avail { init with file := true } 0 pre = .running st)
    (hbody : loop_body avail { st with line := true }
      (((0 + pre.length) % 4294967296 + 1) % 4294967296) line = .exited status st1) :
    main avail fopen [prog, name] = .exited status st1 := by
  rw [main_opened avail fopen prog name text hopen, hlines,
    main_loop_at avail _ st 0 pre line post hpre, hbody]

/-! ## Long files: the line counter wraps -/

theorem getlines_newlines (n : Nat) (rest : List Char) :
    getlines (List.replicate n '\n' ++ rest) = List.replicate n ['\n'] ++ getlines rest := by
  induction n with
  | zero => simp
  | succ n ih => simp [List.replicate_succ, getlines, ih]

theorem main_loop_newlines (avail : Nat → Bool) (st : State) (line_number n : Nat)
    (rest : List (List Char)) :
    main_loop avail st line_number (List.replicate (n + 1) ['\n'] ++ rest) =
      main_loop avail { st with line := true } ((line_number + (n + 1)) % 4294967296) rest := by
  have hn : ∀ l ∈ List.replicate (n + 1) ['\n'], is_noop l = true := by
    intro l hl
    rw [(List.mem_replicate.mp hl).2]
    decide
  rw [main_loop_append, main_loop_noop avail _ st line_number hn]
  simp [List.replicate_succ]

theorem run_text_newlines (n : Nat) (rest : List Char) :
    run_text (List.replicate (n + 1) '\n' ++ rest) =
      match main_loop always { init with line := true, file := true }
          ((0 + (n + 1)) % 4294967296) (getlines rest) with
      | .running st => cleanup_exit 0 st
      | r => r := by
  unfold run_text
  rw [main_opened always _ _ ['m'] (List.replicate (n + 1) '\n' ++ rest) (by simp [one_file]),
    getlines_newlines, main_loop_newlines]

/-! ## Diagnostics -/

/-- C5, as amended: when lines `1..k-1` run without error, `k` is below `2 ^ 31`, and the first
token of line `k` does not start with `#` and is neither `push` nor `pall`, the interpreter
exits with status 1 and the error stream holds exactly `L<k>: unknown instruction <opcode>`;
standard output is what lines `1..k-1` printed. -/
theorem unknown_instruction_reported (avail : Nat → Bool) (fopen : CStr → Option (List Char))
    (prog name : CStr) (text : List Char) (pre : List (List Char)) (line : List Char)
    (post : List (List Char)) (st : State) (opcode : CStr)
    (hopen : fopen name = some text) (hlines : getlines text = pre ++ line :: post)
    (hk : pre.length + 1 < 2147483648)
    (hpre : main_loop avail { init with file := true } 0 pre = .running st)
    (hop : first_token line = some opcode) (hc : opcode.head? ≠ some '#')
    (hpush : opcode ≠ "push".toList) (hpall : opcode ≠ "pall".toList) :
    ∃ st1, main avail fopen [prog, name] = .exited 1 st1 ∧
      st1.err = unknown_diag (pre.length + 1) opcode ∧ st1.out = st.out := by
  obtain ⟨herr, -, cs, hcs⟩ := main_loop_running avail pre _ st 0 hpre (stack_ok_init false true)
  have hbody := loop_body_unknown avail { st with line := true }
    (((0 + pre.length) % 4294967296 + 1) % 4294967296) line opcode hop hc hpush hpall
  have hexit := hbody.trans (cleanup_exit_chain 1 _ cs hcs)
  refine ⟨_, main_at avail fopen prog name text pre line post st 1 _ hopen hlines hpre hexit,
    ?_, ?_⟩
  · show st.err ++ "L" ++ fmt_d (as_int (((0 + pre.length) % 4294967296 + 1) % 4294967296))
      ++ ": unknown instruction " ++ String.mk opcode ++ "\n" = _
    rw [fmt_line_number pre.length hk, herr]
    rfl
  · rfl

theorem unknown_instruction_reported_witness :
    ∃ st1, run "foo" = .exited 1 st1 ∧ st1.err = "L1: unknown instruction foo\n" ∧
      st1.out = "" :=
  unknown_instruction_reported always (one_file ['m'] "foo".toList) ['m', 'o', 'n', 't', 'y']
    ['m'] "foo".toList [] "foo".toList [] { init with file := true } "foo".toList
    (by decide) (by decide) (by decide) (by decide) (by decide) (by decide) (by decide)
    (by decide)

/-- C5 fails as stated: in the file made of `2 ^ 32 - 1` empty lines followed by the line `foo`,
the unknown opcode stands on line 4294967296, and the diagnostic names line 0. -/
theorem unknown_instruction_line_wraps :
    run_text (List.replicate 4294967295 '\n' ++ "foo\n".toList) =
        .exited 1 { init with err := "L0: unknown instruction foo\n" } ∧
      "L0: unknown instruction foo\n" ≠ unknown_diag 4294967296 "foo".toList := by
  constructor
  · rw [run_text_newlines 4294967294]
    decide
  · decide

theorem usage_diag_ne_malloc (k : Nat) (e : String) (he : e = "") :
    e ++ "Error: malloc failed\n" ≠ usage_diag k := by
  subst he
  intro h
  have h1 := congrArg String.data h
  simp only [usage_diag, String.data_append] at h1
  have h2 := congrArg List.head? h1
  simp at h2

/-- C4, as amended: when lines `1..k-1` run without error, `k` is below `2 ^ 31`, and the opcode
of line `k` is `push`, the run ends at line `k` with exit status 1 and with exactly
`L<k>: usage: push integer` on the error stream if and only if the token after `push` is
missing or rejected by `is_number`. -/
theorem push_usage_iff (avail : Nat → Bool) (fopen : CStr → Option (List Char))
    (prog name : CStr) (text : List Char) (pre : List (List Char)) (line : List Char)
    (post : List (List Char)) (st : State)
    (hopen : fopen name = some text) (hlines : getlines text = pre ++ line :: post)
    (hk : pre.length + 1 < 2147483648)
    (hpre : main_loop avail { init with file := true } 0 pre = .running st)
    (hop : first_token line = some "push".toList) :
    (∃ st1, main_loop avail { init with file := true } 0 (pre ++ [line]) = .exited 1 st1 ∧
        main avail fopen [prog, name] = .exited 1 st1 ∧
        st1.err = usage_diag (pre.length + 1)) ↔
      (second_token line = none ∨ is_number (second_token line) = 0) := by
  obtain ⟨herr, -, cs, hcs⟩ := main_loop_running avail pre _ st 0 hpre (stack_ok_init false true)
  have herr0 : st.err = "" := herr
  constructor
  · rintro ⟨st1, hrun, -, hdiag⟩
    rw [main_loop_at avail _ st 0 pre line [] hpre] at hrun
    cases h2 : second_token line with
    | none => exact Or.inl rfl
    | some arg =>
      by_cases h3 : is_number (some arg) = 0
      · exact Or.inr h3
      · exfalso
        rw [loop_body_push_good avail _ _ line arg hop h2 h3] at hrun
        rcases push_cases avail (strtok (strtok (cstr line)).2).2 { st with line := true }
            (((0 + pre.length) % 4294967296 + 1) % 4294967296) with
          ⟨s, hs⟩ | ⟨s, hs, he⟩ | ⟨s, hs, -⟩
        · rw [hs] at hrun
          cases hrun
        · rw [hs] at hrun
          simp only [Result.exited.injEq, true_and] at hrun
          subst hrun
          rw [hdiag] at he
          exact usage_diag_ne_malloc _ _ herr0 he.symm
        · rw [hs] at hrun
          simp [main_loop] at hrun
  · intro hbad
    have hbody := loop_body_push_bad avail { st with line := true }
      (((0 + pre.length) % 4294967296 + 1) % 4294967296) line hop hbad
    have hexit := hbody.trans (cleanup_exit_chain 1 _ cs hcs)
    refine ⟨_, ?_, main_at avail fopen prog name text pre line post st 1 _ hopen hlines hpre hexit,
      ?_⟩
    · rw [main_loop_at avail _ st 0 pre line [] hpre, hexit]
    · show st.err ++ "L" ++ fmt_d (as_int (((0 + pre.length) % 4294967296 + 1) % 4294967296))
        ++ ": usage: push integer\n" = _
      rw [fmt_line_number pre.length hk, herr0]
      rfl

theorem push_usage_iff_witness :
    (∃ st1, main_loop always { init with file := true } 0
          ["push 3 4\n".toList, "push abc\n".toList] = .exited 1 st1 ∧
        run "push 3 4\npush abc\npall\n" = .exited 1 st1 ∧
        st1.err = "L2: usage: push integer\n") ↔
      (second_token "push abc\n".toList = none ∨
        is_number (second_token "push abc\n".toList) = 0) :=
  push_usage_iff always (one_file ['m'] "push 3 4\npush abc\npall\n".toList)
    ['m', 'o', 'n', 't', 'y'] ['m'] "push 3 4\npush abc\npall\n".toList ["push 3 4\n".toList]
    "push abc\n".toList ["pall\n".toList]
    { init with heap := [some ⟨4, none, none⟩], stack := some 0, line := true, file := true,
                mallocs := 1 }
    (by decide) (by decide) (by decide) (by decide) (by decide)

/-- C4 fails as stated: in the file made of `2 ^ 32 - 1` empty lines followed by the line `push`,
the `push` without argument stands on line 4294967296, and the diagnostic names line 0; and the
file of the two lines `push 3` and `push abc` does not reach its second line, as `push` hands
`atoi` a null pointer on the first. -/
theorem push_usage_line_wraps :
    (run_text (List.replicate 4294967295 '\n' ++ "push\n".toList) =
        .exited 1 { init with err := "L0: usage: push integer\n" } ∧
      "L0: usage: push integer\n" ≠ usage_diag 4294967296) ∧
    run "push 3\npush abc\n" = .undefined { init with line := true, file := true } := by
  refine ⟨⟨?_, by decide⟩, by decide⟩
  rw [run_text_newlines 4294967294]
  decide

/-! ## `pall` -/

/-- C9: on every stack (a chain of nodes that ends in `NULL`) `pall` returns, leaves the nodes,
the head and everything but standard output as they were, and appends to standard output
exactly the values of the chain from the head on, one per line; a second `pall` right after
prints the same lines again. -/
theorem pall_frame (st : State) (line_number line_number2 : Nat) (cs : List (Nat × Int))
    (h : is_chain st.heap st.stack cs) :
    pall st line_number = .running { st with out := st.out ++ print_all (cs.map Prod.snd) } ∧
    pall { st with out := st.out ++ print_all (cs.map Prod.snd) } line_number2 =
      .running
        { st with
          out := st.out ++ print_all (cs.map Prod.snd) ++ print_all (cs.map Prod.snd) } :=
  ⟨pall_chain st line_number cs h,
    pall_chain { st with out := st.out ++ print_all (cs.map Prod.snd) } line_number2 cs h⟩

theorem pall_frame_witness :
    pall { init with
          heap := [some ⟨2, some 1, none⟩, some ⟨4, none, some 0⟩], stack := some 1,
          out := "7\n" } 3 =
      .running { init with
          heap := [some ⟨2, some 1, none⟩, some ⟨4, none, some 0⟩], stack := some 1,
          out := "7\n4\n2\n" } ∧
    pall { init with
          heap := [some ⟨2, some 1, none⟩, some ⟨4, none, some 0⟩], stack := some 1,
          out := "7\n4\n2\n" } 4 =
      .running { init with
          heap := [some ⟨2, some 1, none⟩, some ⟨4, none, some 0⟩], stack := some 1,
          out := "7\n4\n2\n4\n2\n" } :=
  pall_frame
    { init with
      heap := [some ⟨2, some 1, none⟩, some ⟨4, none, some 0⟩], stack := some 1, out := "7\n" }
    3 4 [(1, 4), (0, 2)]
    ⟨rfl, ⟨4, none, some 0⟩, rfl, rfl, rfl, ⟨2, some 1, none⟩, rfl, rfl, rfl⟩

theorem pall_empty (st : State) (line_number : Nat) (h : st.stack = none) :
    pall st line_number = .running st := by
  unfold pall
  rw [h]
  rfl

/-- C10: `pall` on an empty stack returns with the state as it was, so nothing is printed; and a
program in which one line has the opcode `pall` and every other line is blank or a comment ends
with exit status 0, with nothing on standard output and nothing on the error stream. -/
theorem pall_only (avail : Nat → Bool) (fopen : CStr → Option (List Char)) (prog name : CStr)
    (text : List Char) (pre : List (List Char)) (line : List Char) (post : List (List Char))
    (hopen : fopen name = some text) (hlines : getlines text = pre ++ line :: post)
    (hpre : ∀ l ∈ pre, is_noop l = true) (hpost : ∀ l ∈ post, is_noop l = true)
    (hop : first_token line = some "pall".toList) :
    (∀ (st : State) (line_number : Nat), st.stack = none → pall st line_number = .running st) ∧
    main avail fopen [prog, name] = .exited 0 init := by
  refine ⟨pall_empty, ?_⟩
  rw [main_opened avail fopen prog name text hopen, hlines,
    main_loop_at avail _ _ 0 pre line post (main_loop_noop avail pre _ 0 hpre),
    loop_body_pall avail _ _ line hop, pall_empty _ _ rfl]
  simp only []
  rw [main_loop_noop avail post _ _ hpost]
  rfl

theorem pall_only_witness :
    (∀ (st : State) (line_number : Nat), st.stack = none → pall st line_number = .running st) ∧
    run "# print\n\npall\n" = .exited 0 init :=
  pall_only always (one_file ['m'] "# print\n\npall\n".toList) ['m', 'o', 'n', 't', 'y'] ['m']
    "# print\n\npall\n".toList ["# print\n".toList, "\n".toList] "pall\n".toList []
    (by decide) (by decide) (by decide) (by decide) (by decide)

/-! ## The argument that `push` reads -/

theorem push_without_third_token (avail : Nat → Bool) (st : State) (line_number : Nat)
    (line : List Char) (arg : CStr) (h1 : first_token line = some "push".toList)
    (h2 : second_token line = some arg) (h3 : is_number (some arg) ≠ 0)
    (h4 : (strtok (strtok (strtok (cstr line)).2).2).1 = none) :
    loop_body avail st line_number line = .undefined st := by
  rw [loop_body_push_good avail st line_number line arg h1 h2 h3]
  simp [push, h4, atoi]

/-- C1 fails on the code: the program `push 1`, `push 2`, `pall` prints nothing and does not
exit with status 0.  On its first line `main` takes the tokens `push` and `1`, and `push` asks
`strtok` for a further token, gets a null pointer and hands it to `atoi`. -/
theorem push_pall_undefined :
    run "push 1\npush 2\npall\n" = .undefined { init with line := true, file := true } := by
  decide

/-- C2 fails on the code: the line `push 3 4` pushes 4, the token after the one that `main`
checked, and the program `push 3 4`, `pall` prints 4. -/
theorem push_reads_third_token :
    loop_body always { init with line := true, file := true } 1 "push 3 4\n".toList =
        .running
          { init with
            heap := [some ⟨4, none, none⟩], stack := some 0, line := true, file := true,
            mallocs := 1 } ∧
      run "push 3 4\npall\n" = .exited 0 { init with heap := [none], out := "4\n", mallocs := 1 } :=
  by decide

/-- C6 fails on the code: every line of the program `push 3` is a `push` whose argument passes
`is_number`, and the run does not exit with status 0 (nor with status 1): `push` hands `atoi`
a null pointer. -/
theorem valid_push_no_exit :
    run "push 3\n" = .undefined { init with line := true, file := true } ∧
      (first_token "push 3\n".toList = some "push".toList ∧
        is_number (second_token "push 3\n".toList) = 1) := by
  decide

/-- C7 fails on the code: in the program `push 3`, `foo` the first offending line is line 2, and
the run ends on line 1 with no diagnostic on the error stream, as `push` hands `atoi` a null
pointer. -/
theorem no_diagnostic_before_fatal_line :
    run "push 3\nfoo\n" = .undefined { init with line := true, file := true } ∧
      run "push 3\n" = .undefined { init with line := true, file := true } := by
  decide

/-! ## Blank lines and comments -/

theorem same_diag_refl (e : String) : same_diag e e := Or.inl rfl

theorem agree_refl (s : State) : agree s s := ⟨rfl, rfl, rfl, rfl, rfl, same_diag_refl _⟩

theorem same_effect_refl (r : Result) : same_effect r r := by
  cases r with
  | running s => exact agree_refl s
  | exited a s => exact ⟨rfl, agree_refl s⟩
  | undefined s => exact agree_refl s
  | diverges s => exact agree_refl s

theorem cleanup_exit_agree (status : Int) (s t : State) (h : agree s t) :
    same_effect (cleanup_exit status s) (cleanup_exit status t) := by
  obtain ⟨h1, h2, h3, h4, h5, h6⟩ := h
  unfold cleanup_exit free_stack
  simp only []
  rw [h1, h2]
  cases free_loop (t.heap.length + 1) t.heap t.stack with
  | none => exact ⟨rfl, rfl, h3, h4, h5, h6⟩
  | some heap1 => exact ⟨rfl, rfl, rfl, h3, rfl, h5, h6⟩

theorem cleanup_exit_renumber (status : Int) (st : State) (a b : Int) (tail : String) :
    same_effect
      (cleanup_exit status { st with err := st.err ++ "L" ++ fmt_d a ++ tail })
      (cleanup_exit status { st with err := st.err ++ "L" ++ fmt_d b ++ tail }) :=
  cleanup_exit_agree status _ _
    ⟨rfl, rfl, rfl, rfl, rfl, Or.inr ⟨st.err, tail, a, b, rfl, rfl⟩⟩

theorem loop_body_renumber (avail : Nat → Bool) (st : State) (a b : Nat) (line : List Char) :
    (∀ st1, loop_body avail st a line = .running st1 →
        loop_body avail st b line = .running st1) ∧
      same_effect (loop_body avail st a line) (loop_body avail st b line) := by
  rcases line_cases line with hn | ⟨opcode, hop, hc⟩
  · rw [loop_body_noop avail st a line hn, loop_body_noop avail st b line hn]
    exact ⟨fun _ h => h, agree_refl st⟩
  · by_cases hpush : opcode = "push".toList
    · subst hpush
      have hbad : second_token line = none ∨ is_number (second_token line) = 0 →
          (∀ st1, loop_body avail st a line = .running st1 →
              loop_body avail st b line = .running st1) ∧
            same_effect (loop_body avail st a line) (loop_body avail st b line) := by
        intro h2
        rw [loop_body_push_bad avail st a line hop h2, loop_body_push_bad avail st b line hop h2]
        exact ⟨fun st1 h => absurd h (cleanup_exit_ne_running _ _ _),
          cleanup_exit_renumber 1 st _ _ _⟩
      cases h2 : second_token line with
      | none => exact hbad (Or.inl h2)
      | some arg =>
        by_cases h3 : is_number (some arg) = 0
        · exact hbad (Or.inr (h2 ▸ h3))
        · rw [loop_body_push_good avail st a line arg hop h2 h3,
            loop_body_push_good avail st b line arg hop h2 h3]
          exact ⟨fun _ h => h, same_effect_refl _⟩
    · by_cases hpall : opcode = "pall".toList
      · subst hpall
        rw [loop_body_pall avail st a line hop, loop_body_pall avail st b line hop]
        exact ⟨fun _ h => h, same_effect_refl _⟩
      · rw [loop_body_unknown avail st a line opcode hop hc hpush hpall,
          loop_body_unknown avail st b line opcode hop hc hpush hpall]
        refine ⟨fun st1 h => absurd h (cleanup_exit_ne_running _ _ _), ?_⟩
        have := cleanup_exit_renumber 1 st (as_int a) (as_int b)
          (": unknown instruction " ++ String.mk opcode ++ "\n")
        simpa only [String.append_assoc] using this

theorem main_loop_skip (avail : Nat → Bool) :
    ∀ (p q : List (List Char)) (s t : State) (a b : Nat),
      { s with line := true } = { t with line := true } →
      p.filter (fun l => !is_noop l) = q.filter (fun l => !is_noop l) →
      same_effect (main_loop avail s a p) (main_loop avail t b q) := by
  intro p
  induction p with
  | nil =>
    intro q s t a b hst h
    have hq : ∀ l ∈ q, is_noop l = true := by
      intro l hl
      have := List.filter_eq_nil_iff.mp h.symm l hl
      simpa using this
    rw [main_loop_noop avail q t b hq]
    obtain ⟨e1, e2, e3, e6, -, e4, e5⟩ := State.mk.inj hst
    exact ⟨e1, e2, e3, e4, e5, Or.inl e6⟩
  | cons l p ih =>
    intro q s t a b hst h
    by_cases hn : is_noop l = true
    · have hf : (l :: p).filter (fun l => !is_noop l) = p.filter (fun l => !is_noop l) := by
        simp [List.filter_cons, hn]
      rw [hf] at h
      have hstep : main_loop avail s a (l :: p) =
          main_loop avail { s with line := true } ((a + 1) % 4294967296) p := by
        simp only [main_loop]
        rw [loop_body_noop avail _ _ l hn]
      rw [hstep]
      exact ih q { s with line := true } t _ b hst h
    · have hf : (l :: p).filter (fun l => !is_noop l) =
          l :: p.filter (fun l => !is_noop l) := by
        simp [List.filter_cons, hn]
      rw [hf] at h
      obtain ⟨q1, q2, hq, hq1, -, hq2⟩ := List.filter_eq_cons_iff.mp h.symm
      have hq1n : ∀ x ∈ q1, is_noop x = true := by
        intro x hx
        simpa using hq1 x hx
      have hright := main_loop_at avail t _ b q1 l q2 (main_loop_noop avail q1 t b hq1n)
      have hbody : loop_body avail
          { ({ t with line := t.line || !q1.isEmpty } : State) with line := true }
            (((b + q1.length) % 4294967296 + 1) % 4294967296) l =
          loop_body avail { s with line := true }
            (((b + q1.length) % 4294967296 + 1) % 4294967296) l := by
        rw [hst]
      rw [hbody] at hright
      rw [hq, hright]
      simp only [main_loop]
      obtain ⟨hrun, hsame⟩ := loop_body_renumber avail { s with line := true }
        ((a + 1) % 4294967296) (((b + q1.length) % 4294967296 + 1) % 4294967296) l
      cases hL : loop_body avail { s with line := true } ((a + 1) % 4294967296) l with
      | running st1 =>
        rw [hrun st1 hL]
        exact ih q2 st1 st1 _ _ rfl hq2.symm
      | exited x st1 =>
        rw [hL] at hsame
        cases hR : loop_body avail { s with line := true }
            (((b + q1.length) % 4294967296 + 1) % 4294967296) l with
        | exited y st2 => rw [hR] at hsame; exact hsame
        | running st2 => rw [hR] at hsame; exact hsame.elim
        | undefined st2 => rw [hR] at hsame; exact hsame.elim
        | diverges st2 => rw [hR] at hsame; exact hsame.elim
      | undefined st1 =>
        rw [hL] at hsame
        cases hR : loop_body avail { s with line := true }
            (((b + q1.length) % 4294967296 + 1) % 4294967296) l with
        | undefined st2 => rw [hR] at hsame; exact hsame
        | running st2 => rw [hR] at hsame; exact hsame.elim
        | exited y st2 => rw [hR] at hsame; exact hsame.elim
        | diverges st2 => rw [hR] at hsame; exact hsame.elim
      | diverges st1 =>
        rw [hL] at hsame
        cases hR : loop_body avail { s with line := true }
            (((b + q1.length) % 4294967296 + 1) % 4294967296) l with
        | diverges st2 => rw [hR] at hsame; exact hsame
        | running st2 => rw [hR] at hsame; exact hsame.elim
        | exited y st2 => rw [hR] at hsame; exact hsame.elim
        | undefined st2 => rw [hR] at hsame; exact hsame.elim

theorem main_same_effect (avail : Nat → Bool) (fopen fopen1 : CStr → Option (List Char))
    (prog name prog1 name1 : CStr) (text text1 : List Char)
    (hopen : fopen name = some text) (hopen1 : fopen1 name1 = some text1)
    (h : same_effect (main_loop avail { init with file := true } 0 (getlines text))
      (main_loop avail { init with file := true } 0 (getlines text1))) :
    same_effect (main avail fopen [prog, name]) (main avail fopen1 [prog1, name1]) := by
  rw [main_opened avail fopen prog name text hopen,
    main_opened avail fopen1 prog1 name1 text1 hopen1]
  cases hL : main_loop avail { init with file := true } 0 (getlines text) with
  | running s =>
    cases hR : main_loop avail { init with file := true } 0 (getlines text1) with
    | running t =>
      rw [hL, hR] at h
      exact cleanup_exit_agree 0 s t h
    | exited y t => rw [hL, hR] at h; exact h.elim
    | undefined t => rw [hL, hR] at h; exact h.elim
    | diverges t => rw [hL, hR] at h; exact h.elim
  | exited x s =>
    cases hR : main_loop avail { init with file := true } 0 (getlines text1) with
    | exited y t => rw [hL, hR] at h; exact h
    | running t => rw [hL, hR] at h; exact h.elim
    | undefined t => rw [hL, hR] at h; exact h.elim
    | diverges t => rw [hL, hR] at h; exact h.elim
  | undefined s =>
    cases hR : main_loop avail { init with file := true } 0 (getlines text1) with
    | undefined t => rw [hL, hR] at h; exact h
    | running t => rw [hL, hR] at h; exact h.elim
    | exited y t => rw [hL, hR] at h; exact h.elim
    | diverges t => rw [hL, hR] at h; exact h.elim
  | diverges s =>
    cases hR : main_loop avail { init with file := true } 0 (getlines text1) with
    | diverges t => rw [hL, hR] at h; exact h
    | running t => rw [hL, hR] at h; exact h.elim
    | exited y t => rw [hL, hR] at h; exact h.elim
    | undefined t => rw [hL, hR] at h; exact h.elim

/-- C8: blank lines and lines whose first token starts with `#` are no-ops.  Two programs that
are the same once such lines are removed have the same effect from every state of the loop and
from every value of the line counter, and so have the two runs of the interpreter on them: the
same way of ending and exit status, the same standard output, the same nodes and stack, and the
same diagnostic up to the line number it names.  As this holds of every pair of programs, it
holds of the programs cut after any instruction. -/
theorem noop_lines_no_effect (avail : Nat → Bool) (p q : List (List Char))
    (h : p.filter (fun l => !is_noop l) = q.filter (fun l => !is_noop l)) :
    (∀ (st : State) (a b : Nat),
      same_effect (main_loop avail st a p) (main_loop avail st b q)) ∧
    (∀ (fopen fopen1 : CStr → Option (List Char)) (prog name prog1 name1 : CStr)
        (text text1 : List Char), fopen name = some text → fopen1 name1 = some text1 →
        getlines text = p → getlines text1 = q →
        same_effect (main avail fopen [prog, name]) (main avail fopen1 [prog1, name1])) := by
  refine ⟨fun st a b => main_loop_skip avail p q st st a b rfl h, ?_⟩
  intro fopen fopen1 prog name prog1 name1 text text1 hopen hopen1 hp hq
  refine main_same_effect avail fopen fopen1 prog name prog1 name1 text text1 hopen hopen1 ?_
  rw [hp, hq]
  exact main_loop_skip avail p q _ _ 0 0 rfl h

theorem noop_lines_no_effect_witness :
    (∀ (st : State) (a b : Nat),
      same_effect
        (main_loop always st a
          ["push 1 2\n".toList, "\n".toList, "# c\n".toList, "pall\n".toList, "foo\n".toList])
        (main_loop always st b
          ["#\n".toList, "push 1 2\n".toList, "pall\n".toList, " \n".toList, "foo\n".toList])) ∧
    (∀ (fopen fopen1 : CStr → Option (List Char)) (prog name prog1 name1 : CStr)
        (text text1 : List Char), fopen name = some text → fopen1 name1 = some text1 →
        getlines text =
          ["push 1 2\n".toList, "\n".toList, "# c\n".toList, "pall\n".toList, "foo\n".toList] →
        getlines text1 =
          ["#\n".toList, "push 1 2\n".toList, "pall\n".toList, " \n".toList, "foo\n".toList] →
        same_effect (main always fopen [prog, name]) (main always fopen1 [prog1, name1])) :=
  noop_lines_no_effect always
    ["push 1 2\n".toList, "\n".toList, "# c\n".toList, "pall\n".toList, "foo\n".toList]
    ["#\n".toList, "push 1 2\n".toList, "pall\n".toList, " \n".toList, "foo\n".toList]
    (by decide)

/-! ## Tokens -/

theorem dropWhile_delim_append (s1 s : List Char) (h : ∀ c ∈ s1, delim c = true) :
    (s1 ++ s).dropWhile delim = s.dropWhile delim := by
  induction s1 with
  | nil => rfl
  | cons c s1 ih =>
    have hc : delim c = true := h c (List.mem_cons_self _ _)
    simp only [List.cons_append, List.dropWhile_cons, hc, if_true]
    exact ih (fun x hx => h x (List.mem_cons_of_mem _ hx))

theorem strtok_skip (s1 s : List Char) (h : ∀ c ∈ s1, delim c = true) :
    strtok (s1 ++ s) = strtok s := by
  unfold strtok
  rw [dropWhile_delim_append s1 s h]

theorem cstr_append (x y : List Char) (h : ∀ c ∈ x, c ≠ '\x00') :
    cstr (x ++ y) = x ++ cstr y := by
  induction x with
  | nil => rfl
  | cons c x ih =>
    have hc : c ≠ '\x00' := h c (List.mem_cons_self _ _)
    have ih1 := ih (fun z hz => h z (List.mem_cons_of_mem _ hz))
    unfold cstr at ih1 ⊢
    simp only [List.cons_append, List.takeWhile_cons, bne_iff_ne, ne_eq, hc, not_false_eq_true,
      if_true]
    rw [ih1]

theorem takeWhile_token (t tail : List Char) (ht : ∀ c ∈ t, delim c = false)
    (htail : ends_token tail) :
    (t ++ tail).takeWhile (fun x => !delim x) = t ∧
      (t ++ tail).dropWhile (fun x => !delim x) = tail := by
  induction t with
  | nil =>
    rcases htail with h | ⟨d, r, h, hd⟩
    · subst h
      exact ⟨rfl, rfl⟩
    · subst h
      simp [List.takeWhile_cons, List.dropWhile_cons, hd]
  | cons c t ih =>
    have hc : delim c = false := ht c (List.mem_cons_self _ _)
    obtain ⟨h1, h2⟩ := ih (fun z hz => ht z (List.mem_cons_of_mem _ hz))
    simp only [List.cons_append, List.takeWhile_cons, List.dropWhile_cons, hc, Bool.not_false,
      if_true]
    exact ⟨by rw [h1], h2⟩

theorem strtok_token (t tail : List Char) (hne : t ≠ []) (ht : ∀ c ∈ t, delim c = false)
    (htail : ends_token tail) : strtok (t ++ tail) = (some t, tail.drop 1) := by
  obtain ⟨h1, h2⟩ := takeWhile_token t tail ht htail
  cases t with
  | nil => exact absurd rfl hne
  | cons c t =>
    have hc : delim c = false := ht c (List.mem_cons_self _ _)
    unfold strtok
    have hd : (c :: t ++ tail).dropWhile delim = c :: (t ++ tail) := by
      simp [List.dropWhile_cons, hc]
    rw [hd]
    simp only []
    rw [show c :: (t ++ tail) = c :: t ++ tail from rfl, h1, h2]

theorem cstr_ends_token (tail : List Char) (h : ends_token tail) : ends_token (cstr tail) := by
  rcases h with h | ⟨d, r, h, hd⟩
  · subst h
    exact Or.inl rfl
  · subst h
    have hd0 : d ≠ '\x00' := by
      intro h0
      subst h0
      exact absurd hd (by decide)
    refine Or.inr ⟨d, cstr r, ?_, hd⟩
    unfold cstr
    simp [List.takeWhile_cons, hd0]

theorem spaces_delim (s : List Char) (h : ∀ c ∈ s, c = ' ') : ∀ c ∈ s, delim c = true := by
  intro c hc
  rw [h c hc]
  rfl

theorem spaces_no_nul (s : List Char) (h : ∀ c ∈ s, c = ' ') : ∀ c ∈ s, c ≠ '\x00' := by
  intro c hc
  rw [h c hc]
  decide

theorem strtok_drop_spaces (s tail : List Char) (h : ∀ c ∈ s, c = ' ') (htail : ends_token tail) :
    strtok ((s ++ tail).drop 1) = strtok (tail.drop 1) := by
  have hdrop : strtok tail = strtok (tail.drop 1) := by
    rcases htail with ht | ⟨d, r, ht, hd⟩
    · subst ht
      rfl
    · subst ht
      exact strtok_skip [d] r (fun c hc => by rw [List.mem_singleton.mp hc]; exact hd)
  cases s with
  | nil => rfl
  | cons c s =>
    show strtok (s ++ tail) = _
    rw [strtok_skip s tail (spaces_delim s (fun x hx => h x (List.mem_cons_of_mem _ hx))), hdrop]

theorem push_save (avail : Nat → Bool) (w1 w2 : CStr) (st : State) (line_number : Nat)
    (h : (strtok w1).1 = (strtok w2).1) :
    push avail w1 st line_number = push avail w2 st line_number := by
  unfold push
  rw [h]

theorem loop_body_congr (avail : Nat → Bool) (st : State) (line_number : Nat)
    (l1 l2 : List Char) (h1 : (strtok (cstr l1)).1 = (strtok (cstr l2)).1)
    (h2 : (strtok (strtok (cstr l1)).2).1 = (strtok (strtok (cstr l2)).2).1)
    (h3 : (strtok (strtok (strtok (cstr l1)).2).2).1 =
      (strtok (strtok (strtok (cstr l2)).2).2).1) :
    loop_body avail st line_number l1 = loop_body avail st line_number l2 := by
  unfold loop_body
  rcases hs1 : strtok (cstr l1) with ⟨o1, sv1⟩
  rcases hs2 : strtok (cstr l2) with ⟨o2, sv2⟩
  rw [hs1, hs2] at h1 h2 h3
  simp only at h1 h2 h3
  subst h1
  rcases ht1 : strtok sv1 with ⟨a1, w1⟩
  rcases ht2 : strtok sv2 with ⟨a2, w2⟩
  rw [ht1, ht2] at h2 h3
  simp only at h2 h3
  subst h2
  cases o1 with
  | none => rfl
  | some opcode =>
    simp only [ht1, ht2]
    cases a1 with
    | none => rfl
    | some arg => simp only [push_save avail w1 w2 st line_number h3]

theorem first_token_eq (s1 t tail : List Char) (h1 : ∀ c ∈ s1, c = ' ') (ht : is_token t)
    (htail : ends_token tail) :
    strtok (cstr (s1 ++ (t ++ tail))) = (some t, (cstr tail).drop 1) := by
  rw [cstr_append s1 _ (spaces_no_nul s1 h1), cstr_append t _ (fun c hc => (ht.2 c hc).2),
    strtok_skip s1 _ (spaces_delim s1 h1),
    strtok_token t _ ht.1 (fun c hc => (ht.2 c hc).1) (cstr_ends_token tail htail)]

/-! ## Leading spaces -/

/-- C18: spaces put before a line do not change what the interpreter does with it: the body of
the loop yields the same result (state, output, diagnostic, exit status) from every state and
at every line number, and so does the loop on every program that holds the line; a line of
spaces only is skipped as a blank line, and a line whose first character after the spaces is
`#` is skipped as a comment. -/
theorem leading_spaces (avail : Nat → Bool) (n : Nat) (L : List Char) :
    (∀ (st : State) (line_number : Nat),
      loop_body avail st line_number (List.replicate n ' ' ++ L) =
        loop_body avail st line_number L) ∧
    (∀ (st : State) (line_number : Nat) (pre post : List (List Char)),
      main_loop avail st line_number (pre ++ (List.replicate n ' ' ++ L) :: post) =
        main_loop avail st line_number (pre ++ L :: post)) ∧
    is_noop (List.replicate n ' ') = true ∧ is_noop (List.replicate n ' ' ++ ['\n']) = true ∧
    (∀ rest : List Char, is_noop (List.replicate n ' ' ++ '#' :: rest) = true) := by
  have hsp : ∀ c ∈ List.replicate n ' ', c = ' ' := fun c hc => (List.mem_replicate.mp hc).2
  have hstr : ∀ s : List Char,
      strtok (cstr (List.replicate n ' ' ++ s)) = strtok (cstr s) := by
    intro s
    rw [cstr_append _ _ (spaces_no_nul _ hsp), strtok_skip _ _ (spaces_delim _ hsp)]
  have hbody : ∀ (st : State) (line_number : Nat),
      loop_body avail st line_number (List.replicate n ' ' ++ L) =
        loop_body avail st line_number L := by
    intro st line_number
    unfold loop_body
    rw [hstr L]
  refine ⟨hbody, ?_, ?_, ?_, ?_⟩
  · intro st line_number pre post
    rw [main_loop_append, main_loop_append]
    cases main_loop avail st line_number pre with
    | running st1 => simp only [main_loop, hbody]
    | exited a st1 => rfl
    | undefined st1 => rfl
    | diverges st1 => rfl
  · have h := hstr []
    rw [List.append_nil] at h
    unfold is_noop first_token
    rw [h]
    rfl
  · unfold is_noop first_token
    rw [hstr ['\n']]
    rfl
  · intro rest
    unfold is_noop first_token
    rw [hstr ('#' :: rest)]
    have hc : cstr ('#' :: rest) = '#' :: cstr rest := cstr_append ['#'] rest (by decide)
    rw [hc]
    simp [strtok, List.dropWhile_cons, List.takeWhile_cons, delim]

/-! ## Separators -/

/-- C12, as amended: the dispatcher splits a line on spaces (and the newline).  When the opcode
and the argument are tokens without space, newline or NUL, any number of spaces before the
opcode, one or more between opcode and argument and any number after the argument give the
same two tokens and the same result as single spaces; the same holds of spaces around an
opcode alone. -/
theorem spaces_separate (avail : Nat → Bool) (st : State) (line_number : Nat)
    (s1 s2 s3 op arg tail : List Char) (h1 : ∀ c ∈ s1, c = ' ') (h2 : ∀ c ∈ s2, c = ' ')
    (h3 : ∀ c ∈ s3, c = ' ') (hop : is_token op) (harg : is_token arg)
    (htail : ends_token tail) :
    (first_token (s1 ++ (op ++ (' ' :: s2 ++ (arg ++ (s3 ++ tail))))) = some op ∧
      second_token (s1 ++ (op ++ (' ' :: s2 ++ (arg ++ (s3 ++ tail))))) = some arg ∧
      loop_body avail st line_number (s1 ++ (op ++ (' ' :: s2 ++ (arg ++ (s3 ++ tail))))) =
        loop_body avail st line_number (op ++ (' ' :: (arg ++ tail)))) ∧
    (first_token (s1 ++ (op ++ (s3 ++ tail))) = some op ∧
      loop_body avail st line_number (s1 ++ (op ++ (s3 ++ tail))) =
        loop_body avail st line_number (op ++ tail)) := by
  have hsp : ∀ s : List Char, (∀ c ∈ s, c = ' ') → ends_token (s ++ tail) := by
    intro s hs
    cases s with
    | nil => exact htail
    | cons c s =>
      exact Or.inr ⟨c, s ++ tail, rfl, by rw [hs c (List.mem_cons_self _ _)]; rfl⟩
  have hnil : ∀ c ∈ ([] : List Char), c = ' ' := fun c hc => absurd hc (List.not_mem_nil c)
  -- the line with the argument: the first two calls of `strtok`
  have hgap : ends_token (' ' :: s2 ++ (arg ++ (s3 ++ tail))) := Or.inr ⟨' ', _, rfl, rfl⟩
  have ha1 := first_token_eq s1 op _ h1 hop hgap
  have hcs : (cstr (' ' :: s2 ++ (arg ++ (s3 ++ tail)))).drop 1 =
      s2 ++ (arg ++ cstr (s3 ++ tail)) := by
    have hs2 : ∀ c ∈ ' ' :: s2, c ≠ '\x00' :=
      spaces_no_nul _ (fun c hc => by
        rcases List.mem_cons.mp hc with h | h
        · exact h
        · exact h2 c h)
    rw [show ' ' :: s2 ++ (arg ++ (s3 ++ tail)) = (' ' :: s2) ++ (arg ++ (s3 ++ tail)) from rfl,
      cstr_append _ _ hs2, cstr_append arg _ (fun c hc => (harg.2 c hc).2)]
    rfl
  rw [hcs] at ha1
  have ha2 : strtok (s2 ++ (arg ++ cstr (s3 ++ tail))) =
      (some arg, (cstr (s3 ++ tail)).drop 1) := by
    rw [strtok_skip s2 _ (spaces_delim s2 h2),
      strtok_token arg _ harg.1 (fun c hc => (harg.2 c hc).1) (cstr_ends_token _ (hsp s3 h3))]
  -- the same line with single spaces
  have hb1 := first_token_eq [] op (' ' :: (arg ++ tail)) hnil hop (Or.inr ⟨' ', _, rfl, rfl⟩)
  have hcs1 : (cstr (' ' :: (arg ++ tail))).drop 1 = arg ++ cstr tail := by
    rw [show ' ' :: (arg ++ tail) = [' '] ++ (arg ++ tail) from rfl,
      cstr_append [' '] _ (by decide), cstr_append arg _ (fun c hc => (harg.2 c hc).2)]
    rfl
  rw [hcs1, List.nil_append] at hb1
  have hb2 : strtok (arg ++ cstr tail) = (some arg, (cstr tail).drop 1) :=
    strtok_token arg _ harg.1 (fun c hc => (harg.2 c hc).1) (cstr_ends_token _ htail)
  have hthird : strtok ((cstr (s3 ++ tail)).drop 1) = strtok ((cstr tail).drop 1) := by
    rw [cstr_append s3 _ (spaces_no_nul s3 h3)]
    exact strtok_drop_spaces s3 _ h3 (cstr_ends_token _ htail)
  -- the line with the opcode alone
  have hc1 := first_token_eq s1 op (s3 ++ tail) h1 hop (hsp s3 h3)
  have hd1 := first_token_eq [] op tail hnil hop htail
  rw [List.nil_append] at hd1
  refine ⟨⟨?_, ?_, ?_⟩, ?_, ?_⟩
  · unfold first_token
    rw [ha1]
  · unfold second_token
    rw [ha1]
    simp only []
    rw [ha2]
  · apply loop_body_congr
    · rw [ha1, hb1]
    · rw [ha1, hb1]
      simp only []
      rw [ha2, hb2]
    · rw [ha1, hb1]
      simp only []
      rw [ha2, hb2]
      simp only []
      rw [hthird]
  · unfold first_token
    rw [hc1]
  · apply loop_body_congr
    · rw [hc1, hd1]
    · rw [hc1, hd1]
      simp only []
      rw [hthird]
    · rw [hc1, hd1]
      simp only []
      rw [hthird]

theorem spaces_separate_witness :
    (first_token "  push  3  4\n".toList = some "push".toList ∧
      second_token "  push  3  4\n".toList = some "3".toList ∧
      loop_body always init 7 "  push  3  4\n".toList =
        loop_body always init 7 "push 3 4\n".toList) ∧
    (first_token "  push  4\n".toList = some "push".toList ∧
      loop_body always init 7 "  push  4\n".toList =
        loop_body always init 7 "push 4\n".toList) :=
  spaces_separate always init 7 "  ".toList " ".toList " ".toList "push".toList "3".toList
    " 4\n".toList (by decide) (by decide) (by decide) ⟨by decide, by decide⟩
    ⟨by decide, by decide⟩ (Or.inr ⟨' ', "4\n".toList, rfl, rfl⟩)

/-- C12 fails as stated: a tab is not a separator.  In the line `push<TAB>3` the first token is
the whole of `push<TAB>3`, which is reported as an unknown instruction, and so is `pall<TAB>`;
with a space in place of the tab the second program runs `pall` and exits with status 0. -/
theorem tab_not_separator :
    first_token "push\t3\n".toList = some "push\t3".toList ∧
    run "push\t3\n" = .exited 1 { init with err := "L1: unknown instruction push\t3\n" } ∧
    run "pall\t\n" = .exited 1 { init with err := "L1: unknown instruction pall\t\n" } ∧
    run "pall \n" = .exited 0 init := by
  decide

/-! ## The token that `push` hands to `atoi` -/

/-- C17 fails on the code: on the line `push 5` the loop of `main` validates the token `5` and
calls `push`, whose own call of `strtok` finds no further token; the null pointer goes to
`atoi`, where the behaviour is undefined. -/
theorem push_reads_null :
    first_token "push 5\n".toList = some "push".toList ∧
    is_number (second_token "push 5\n".toList) = 1 ∧
    third_token "push 5\n".toList = none ∧
    atoi (third_token "push 5\n".toList) = none ∧
    loop_body always { init with line := true, file := true } 1 "push 5\n".toList =
      .undefined { init with line := true, file := true } := by
  decide

/-! ## The file and the line buffer -/

/-- C16 fails on the code: when `malloc` fails in `push`, the process exits from `push` after
`free_stack` alone; `file` is still open and `line` is still held. -/
theorem malloc_failure_keeps_file_and_line :
    main never (one_file ['m'] "push 1 2\n".toList) [['m', 'o', 'n', 't', 'y'], ['m']] =
      .exited 1
        { init with err := "Error: malloc failed\n", line := true, file := true, mallocs := 1 } := by
  decide

/-! ## `free_stack` -/

theorem release_cons (heap : Heap) (b : Nat) (as : List Nat) :
    release heap (b :: as) = release (heap.set b none) as := rfl

theorem release_length (as : List Nat) : ∀ heap : Heap, (release heap as).length = heap.length := by
  induction as with
  | nil => intro heap; rfl
  | cons b as ih =>
    intro heap
    rw [release_cons, ih, List.length_set]

theorem release_getElem (as : List Nat) :
    ∀ (heap : Heap) (a : Nat),
      (release heap as)[a]? =
        if a ∈ as then (heap[a]?).map (fun _ => none) else heap[a]? := by
  induction as with
  | nil => intro heap a; simp [release]
  | cons b as ih =>
    intro heap a
    rw [release_cons, ih]
    by_cases hab : b = a
    · subst hab
      by_cases hlt : b < heap.length
      · have h1 : (heap.set b none)[b]? = some none := List.getElem?_set_self hlt
        have h2 : ∃ x, heap[b]? = some x := ⟨heap[b], List.getElem?_eq_getElem hlt⟩
        obtain ⟨x, hx⟩ := h2
        by_cases hmem : b ∈ as <;> simp [hmem, h1, hx]
      · have h1 : (heap.set b none)[b]? = none :=
          List.getElem?_eq_none (by rw [List.length_set]; exact Nat.le_of_not_lt hlt)
        have h2 : heap[b]? = none := List.getElem?_eq_none (Nat.le_of_not_lt hlt)
        by_cases hmem : b ∈ as <;> simp [hmem, h1, h2]
    · have h1 : (heap.set b none)[a]? = heap[a]? := List.getElem?_set_ne hab
      have hne : ¬ a = b := fun h => hab h.symm
      by_cases hmem : a ∈ as <;> simp [hmem, h1, hne]

theorem free_stack_empty (s : State) (h : s.stack = none) : free_stack s = .running s := by
  obtain ⟨heap, stack, out, err, line, file, mallocs⟩ := s
  simp only at h
  subst h
  unfold free_stack
  simp [free_loop]

/-- C11: on every stack (a chain of nodes that ends in `NULL`) `free_stack` returns with the head
`NULL` and every node of the chain freed; called again on the result it returns that same
result, so it is idempotent; and on a state whose stack is already empty it changes nothing. -/
theorem free_stack_idempotent (st : State) (cs : List (Nat × Int))
    (h : is_chain st.heap st.stack cs) :
    free_stack st =
      .running { st with heap := release st.heap (cs.map Prod.fst), stack := none } ∧
    free_stack { st with heap := release st.heap (cs.map Prod.fst), stack := none } =
      .running { st with heap := release st.heap (cs.map Prod.fst), stack := none } ∧
    (∀ a ∈ cs.map Prod.fst, (release st.heap (cs.map Prod.fst))[a]? = some none) ∧
    (∀ s : State, s.stack = none → free_stack s = .running s) := by
  refine ⟨free_stack_chain st cs h, free_stack_empty _ rfl, ?_, free_stack_empty⟩
  intro a ha
  have hlt : a < st.heap.length := is_chain_lt cs st.stack h a ha
  rw [release_getElem, if_pos ha, List.getElem?_eq_getElem hlt]
  rfl

theorem free_stack_idempotent_witness :
    free_stack
        { init with heap := [some ⟨2, some 1, none⟩, some ⟨4, none, some 0⟩], stack := some 1 } =
      .running { init with heap := [none, none], stack := none } ∧
    free_stack { init with heap := [none, none], stack := none } =
      .running { init with heap := [none, none], stack := none } ∧
    (∀ a ∈ [1, 0], ([none, none] : Heap)[a]? = some none) ∧
    (∀ s : State, s.stack = none → free_stack s = .running s) :=
  free_stack_idempotent
    { init with heap := [some ⟨2, some 1, none⟩, some ⟨4, none, some 0⟩], stack := some 1 }
    [(1, 4), (0, 2)]
    ⟨rfl, ⟨4, none, some 0⟩, rfl, rfl, rfl, ⟨2, some 1, none⟩, rfl, rfl, rfl⟩

/-! ## Signs -/

theorem is_number_sign (c : Char) (rest : CStr) (hc : c = '-' ∨ c = '+') :
    is_number (some (c :: rest)) = 0 := by
  have hlt : c < '0' := by
    rcases hc with h | h <;> rw [h] <;> decide
  simp [is_number, is_number_loop, hlt]

/-- C13, as amended: `is_number` returns 0 for every token that begins with `-` or `+`; so,
when lines `1..k-1` run without error and `k` is below `2 ^ 31`, a line `k` whose opcode is
`push` and whose argument begins with a sign ends the run with exit status 1 and with exactly
`L<k>: usage: push integer` on the error stream, and nothing is pushed: no node is allocated
and standard output is as lines `1..k-1` left it. -/
theorem sign_rejected (avail : Nat → Bool) (fopen : CStr → Option (List Char))
    (prog name : CStr) (text : List Char) (pre : List (List Char)) (line : List Char)
    (post : List (List Char)) (st : State) (c : Char) (rest : CStr)
    (hopen : fopen name = some text) (hlines : getlines text = pre ++ line :: post)
    (hk : pre.length + 1 < 2147483648)
    (hpre : main_loop avail { init with file := true } 0 pre = .running st)
    (hop : first_token line = some "push".toList)
    (harg : second_token line = some (c :: rest)) (hc : c = '-' ∨ c = '+') :
    (∀ r : CStr, is_number (some ('-' :: r)) = 0 ∧ is_number (some ('+' :: r)) = 0) ∧
    ∃ st1, main avail fopen [prog, name] = .exited 1 st1 ∧
      st1.err = usage_diag (pre.length + 1) ∧ st1.mallocs = st.mallocs ∧
      st1.heap.length = st.heap.length ∧ st1.stack = none ∧ st1.out = st.out := by
  refine ⟨fun r => ⟨is_number_sign '-' r (Or.inl rfl), is_number_sign '+' r (Or.inr rfl)⟩, ?_⟩
  obtain ⟨herr, -, cs, hcs⟩ := main_loop_running avail pre _ st 0 hpre (stack_ok_init false true)
  have herr0 : st.err = "" := herr
  have hbad : second_token line = none ∨ is_number (second_token line) = 0 :=
    Or.inr (by rw [harg]; exact is_number_sign c rest hc)
  have hbody := loop_body_push_bad avail { st with line := true }
    (((0 + pre.length) % 4294967296 + 1) % 4294967296) line hop hbad
  have hexit := hbody.trans (cleanup_exit_chain 1 _ cs hcs)
  refine ⟨_, main_at avail fopen prog name text pre line post st 1 _ hopen hlines hpre hexit,
    ?_, rfl, release_length _ _, rfl, rfl⟩
  show st.err ++ "L" ++ fmt_d (as_int (((0 + pre.length) % 4294967296 + 1) % 4294967296))
    ++ ": usage: push integer\n" = _
  rw [fmt_line_number pre.length hk, herr0]
  rfl

theorem sign_rejected_witness :
    (∀ r : CStr, is_number (some ('-' :: r)) = 0 ∧ is_number (some ('+' :: r)) = 0) ∧
    ∃ st1, run "push 1 7\npush -5\npall\n" = .exited 1 st1 ∧
      st1.err = "L2: usage: push integer\n" ∧ st1.mallocs = 1 ∧
      st1.heap.length = 1 ∧ st1.stack = none ∧ st1.out = "" :=
  sign_rejected always (one_file ['m'] "push 1 7\npush -5\npall\n".toList)
    ['m', 'o', 'n', 't', 'y'] ['m'] "push 1 7\npush -5\npall\n".toList ["push 1 7\n".toList]
    "push -5\n".toList ["pall\n".toList]
    { init with heap := [some ⟨7, none, none⟩], stack := some 0, line := true, file := true,
                mallocs := 1 }
    '-' ['5'] (by decide) (by decide) (by decide) (by decide) (by decide) (by decide)
    (Or.inl rfl)

/-- C13 fails as stated: in the file made of `2 ^ 32 - 1` empty lines followed by the line
`push -5`, the signed argument stands on line 4294967296, and the diagnostic names line 0. -/
theorem sign_rejected_line_wraps :
    run_text (List.replicate 4294967295 '\n' ++ "push -5\n".toList) =
        .exited 1 { init with err := "L0: usage: push integer\n" } ∧
      "L0: usage: push integer\n" ≠ usage_diag 4294967296 := by
  constructor
  · rw [run_text_newlines 4294967294]
    decide
  · decide

/-! ## The nodes that `push` writes -/

theorem push_running_cells (avail : Nat → Bool) (save : CStr) (st st1 : State)
    (line_number : Nat) (hst : ∀ a, st.stack = some a → a < st.heap.length)
    (hp : push avail save st line_number = .running st1) :
    ∃ v, atoi (strtok save).1 = some v ∧
      st1.heap.length = st.heap.length + 1 ∧ st1.stack = some st.heap.length ∧
      st1.heap[st.heap.length]? = some (some ⟨v, none, st.stack⟩) ∧
      (∀ a, a < st.heap.length → st.stack ≠ some a → st1.heap[a]? = st.heap[a]?) ∧
      (∀ a, st.stack = some a → ∃ nd, st.heap[a]? = some (some nd) ∧
        st1.heap[a]? = some (some { nd with prev := some st.heap.length })) ∧
      st1.out = st.out ∧ st1.err = st.err ∧ st1.line = st.line ∧ st1.file = st.file ∧
      st1.mallocs = st.mallocs + 1 := by
  obtain ⟨heap, stack, out, err, line, file, mallocs⟩ := st
  simp only at hst
  simp only [push] at hp
  cases hv : atoi (strtok save).1 with
  | none =>
    rw [hv] at hp
    cases hp
  | some v =>
    rw [hv] at hp
    simp only [] at hp
    refine ⟨v, rfl, ?_⟩
    by_cases ha : avail mallocs = true
    · have hm : malloc avail ⟨heap, stack, out, err, line, file, mallocs⟩ =
          (some heap.length,
            ⟨heap ++ [some ⟨0, none, none⟩], stack, out, err, line, file, mallocs + 1⟩) := by
        simp [malloc, ha]
      rw [hm] at hp
      simp only [] at hp
      cases stack with
      | none =>
        simp only [Result.running.injEq] at hp
        subst hp
        refine ⟨by simp, rfl, by simp, ?_, ?_, rfl, rfl, rfl, rfl, rfl⟩
        · intro a halt _
          show ((heap ++ [some (⟨0, none, none⟩ : stack_t)]).set heap.length _)[a]? = heap[a]?
          rw [List.getElem?_set_ne (Nat.ne_of_gt halt), List.getElem?_append_left halt]
        · intro a h
          cases h
      | some head =>
        have hlt : head < heap.length := hst head rfl
        have hcell : ((heap ++ [some (⟨0, none, none⟩ : stack_t)]).set heap.length
            (some ⟨v, none, some head⟩))[head]? = heap[head]? := by
          rw [List.getElem?_set_ne (Nat.ne_of_gt hlt), List.getElem?_append_left hlt]
        simp only [hcell] at hp
        rw [List.getElem?_eq_getElem hlt] at hp
        cases hnd : heap[head] with
        | none =>
          rw [hnd] at hp
          cases hp
        | some nd =>
          rw [hnd] at hp
          simp only [Result.running.injEq] at hp
          subst hp
          have hget : heap[head]? = some (some nd) := by
            rw [List.getElem?_eq_getElem hlt, hnd]
          refine ⟨by simp, rfl, ?_, ?_, ?_, rfl, rfl, rfl, rfl, rfl⟩
          · show (((heap ++ [some (⟨0, none, none⟩ : stack_t)]).set heap.length _).set head
              _)[heap.length]? = _
            rw [List.getElem?_set_ne (Nat.ne_of_lt hlt)]
            simp
          · intro a halt hne
            have hha : head ≠ a := fun h => hne (by rw [h])
            show (((heap ++ [some (⟨0, none, none⟩ : stack_t)]).set heap.length _).set head
              _)[a]? = heap[a]?
            rw [List.getElem?_set_ne hha, List.getElem?_set_ne (Nat.ne_of_gt halt),
              List.getElem?_append_left halt]
          · intro a h
            have hha : head = a := Option.some.inj h
            subst hha
            refine ⟨nd, hget, ?_⟩
            show (((heap ++ [some (⟨0, none, none⟩ : stack_t)]).set heap.length _).set head
              _)[head]? = _
            rw [List.getElem?_set_self]
            simpa using Nat.lt_succ_of_lt hlt
    · have hm : malloc avail ⟨heap, stack, out, err, line, file, mallocs⟩ =
          (none, ⟨heap, stack, out, err, line, file, mallocs + 1⟩) := by
        simp [malloc, ha]
      rw [hm] at hp
      simp only [] at hp
      rcases free_stack_cases
        ⟨heap, stack, out, err ++ "Error: malloc failed\n", line, file, mallocs + 1⟩
        with ⟨heap1, h⟩ | h
      · rw [h] at hp
        cases hp
      · rw [h] at hp
        cases hp

/-! ## The doubly linked chain -/

theorem dl_chain_is_chain {heap : Heap} :
    ∀ (cs : List (Nat × Int)) (back p : Option Nat),
      dl_chain heap back p cs → is_chain heap p cs := by
  intro cs
  induction cs with
  | nil => intro back p h; exact h
  | cons c cs ih =>
    rintro back p ⟨hp, nd, hnd, hn, -, hrest⟩
    exact ⟨hp, nd, hnd, hn, ih _ _ hrest⟩

theorem dl_chain_congr {heap heap1 : Heap} :
    ∀ (cs : List (Nat × Int)) (back p : Option Nat),
      (∀ a ∈ cs.map Prod.fst, heap1[a]? = heap[a]?) →
      dl_chain heap back p cs → dl_chain heap1 back p cs := by
  intro cs
  induction cs with
  | nil => intro back p _ h; exact h
  | cons c cs ih =>
    rintro back p hsame ⟨hp, nd, hnd, hn, hprev, hrest⟩
    refine ⟨hp, nd, ?_, hn, hprev, ih _ _ (fun a ha => hsame a ?_) hrest⟩
    · rw [hsame c.1 (by simp)]
      exact hnd
    · rw [List.map_cons]
      exact List.mem_cons_of_mem _ ha

theorem dl_chain_next_prev {heap : Heap} :
    ∀ (cs : List (Nat × Int)) (back p : Option Nat), dl_chain heap back p cs →
      ∀ a ∈ cs.map Prod.fst, ∀ (nd : stack_t) (b : Nat), heap[a]? = some (some nd) →
        nd.next = some b → ∃ nb : stack_t, heap[b]? = some (some nb) ∧ nb.prev = some a := by
  intro cs
  induction cs with
  | nil => intro back p _ a ha; simp at ha
  | cons c cs ih =>
    rintro back p ⟨-, nd, hnd, -, -, hrest⟩ a ha nda b hnda hb
    rw [List.map_cons, List.mem_cons] at ha
    rcases ha with ha | ha
    · subst ha
      rw [hnd] at hnda
      have hnn : nd = nda := Option.some.inj (Option.some.inj hnda)
      subst hnn
      cases cs with
      | nil =>
        have hnone : nd.next = none := hrest
        rw [hnone] at hb
        cases hb
      | cons d ds =>
        obtain ⟨hp1, nb, hnb, -, hprev, -⟩ := hrest
        have hbd : b = d.1 := Option.some.inj (hb.symm.trans hp1)
        rw [hbd]
        exact ⟨nb, hnb, hprev⟩
    · exact ih _ _ hrest a ha nda b hnda hb

theorem chain_head_lt {heap : Heap} (cs : List (Nat × Int)) (p : Option Nat)
    (h : is_chain heap p cs) : ∀ a, p = some a → a < heap.length := by
  intro a ha
  cases cs with
  | nil =>
    have hn : p = none := h
    rw [hn] at ha
    cases ha
  | cons c cs =>
    have hc : p = some c.1 := h.1
    have hac : a = c.1 := Option.some.inj (ha.symm.trans hc)
    rw [hac]
    exact is_chain_lt (c :: cs) p h c.1 (by simp)

theorem push_dl (avail : Nat → Bool) (save : CStr) (st st1 : State) (line_number : Nat)
    (cs : List (Nat × Int)) (h : dl_chain st.heap none st.stack cs)
    (hp : push avail save st line_number = .running st1) :
    ∃ v, atoi (strtok save).1 = some v ∧
      dl_chain st1.heap none st1.stack ((st.heap.length, v) :: cs) := by
  have hch := dl_chain_is_chain cs none st.stack h
  obtain ⟨v, hv, -, hstack, hnew, hold, hhead, -⟩ :=
    push_running_cells avail save st st1 line_number (chain_head_lt cs st.stack hch) hp
  refine ⟨v, hv, hstack, ⟨v, none, st.stack⟩, hnew, rfl, rfl, ?_⟩
  cases cs with
  | nil => exact h
  | cons c cs =>
    have hnodup := is_chain_nodup _ _ hch
    rw [List.map_cons, List.nodup_cons] at hnodup
    obtain ⟨hp0, nd, hnd, hn, -, hrest⟩ := h
    obtain ⟨nd1, hnd1, hcell⟩ := hhead c.1 hp0
    rw [hnd] at hnd1
    have hnn : nd = nd1 := Option.some.inj (Option.some.inj hnd1)
    subst hnn
    refine ⟨hp0, { nd with prev := some st.heap.length }, hcell, hn, rfl, ?_⟩
    refine dl_chain_congr cs _ _ ?_ hrest
    intro a ha
    have halt : a < st.heap.length :=
      is_chain_lt cs nd.next (dl_chain_is_chain cs _ _ hrest) a ha
    refine hold a halt ?_
    rw [hp0]
    intro hsome
    have hca : c.1 = a := Option.some.inj hsome
    exact hnodup.1 (hca ▸ ha)

/-- C14: in every state reached from an empty stack by `n` calls of `push` that return, the
head starts a chain of `n` allocated nodes that ends in `NULL`; no node occurs twice in it, the
back-link of the head is `NULL`, the back-link of the successor of every node of the chain is
that node, and a further `push` that returns makes the head a new node whose `next` is the
head of before. -/
theorem push_keeps_links (avail : Nat → Bool) (n : Nat) (st : State)
    (h : after_pushes avail n st) :
    ∃ cs, dl_chain st.heap none st.stack cs ∧ cs.length = n ∧ (cs.map Prod.fst).Nodup ∧
      (∀ (a : Nat) (nd : stack_t), st.stack = some a → st.heap[a]? = some (some nd) →
        nd.prev = none) ∧
      (∀ a ∈ cs.map Prod.fst, ∀ (nd : stack_t) (b : Nat), st.heap[a]? = some (some nd) →
        nd.next = some b → ∃ nb : stack_t, st.heap[b]? = some (some nb) ∧ nb.prev = some a) ∧
      (∀ (save : CStr) (line_number : Nat) (st1 : State),
        push avail save st line_number = .running st1 →
        ∃ (a : Nat) (nd : stack_t), st1.stack = some a ∧ st1.heap[a]? = some (some nd) ∧
          nd.next = st.stack ∧ after_pushes avail (n + 1) st1) := by
  have hchain : ∃ cs, dl_chain st.heap none st.stack cs ∧ cs.length = n := by
    induction h with
    | empty st hs => exact ⟨[], hs, rfl⟩
    | step n st st1 save line_number _ hp ih =>
      obtain ⟨cs, hcs, hlen⟩ := ih
      obtain ⟨v, -, hdl⟩ := push_dl avail save st st1 line_number cs hcs hp
      exact ⟨_, hdl, by simp [hlen]⟩
  obtain ⟨cs, hcs, hlen⟩ := hchain
  have hch := dl_chain_is_chain cs none st.stack hcs
  refine ⟨cs, hcs, hlen, is_chain_nodup cs _ hch, ?_, dl_chain_next_prev cs none _ hcs, ?_⟩
  · intro a nd ha hnd
    cases cs with
    | nil =>
      have hn : st.stack = none := hcs
      rw [hn] at ha
      cases ha
    | cons c cs =>
      obtain ⟨hp0, nd0, hnd0, -, hprev, -⟩ := hcs
      have hac : a = c.1 := Option.some.inj (ha.symm.trans hp0)
      subst hac
      rw [hnd0] at hnd
      have hnn : nd0 = nd := Option.some.inj (Option.some.inj hnd)
      rw [← hnn]
      exact hprev
  · intro save line_number st1 hp
    obtain ⟨v, -, -, hstack, hnew, -⟩ :=
      push_running_cells avail save st st1 line_number (chain_head_lt cs st.stack hch) hp
    exact ⟨st.heap.length, ⟨v, none, st.stack⟩, hstack, hnew, rfl,
      after_pushes.step n st st1 save line_number h hp⟩

theorem push_keeps_links_witness :
    ∃ cs,
      dl_chain [some ⟨4, some 1, none⟩, some ⟨7, none, some 0⟩] none (some 1) cs ∧
      cs.length = 2 ∧ (cs.map Prod.fst).Nodup ∧
      (∀ (a : Nat) (nd : stack_t), some 1 = some a →
        ([some ⟨4, some 1, none⟩, some ⟨7, none, some 0⟩] : Heap)[a]? = some (some nd) →
        nd.prev = none) ∧
      (∀ a ∈ cs.map Prod.fst, ∀ (nd : stack_t) (b : Nat),
        ([some ⟨4, some 1, none⟩, some ⟨7, none, some 0⟩] : Heap)[a]? = some (some nd) →
        nd.next = some b →
        ∃ nb : stack_t,
          ([some ⟨4, some 1, none⟩, some ⟨7, none, some 0⟩] : Heap)[b]? = some (some nb) ∧
            nb.prev = some a) ∧
      (∀ (save : CStr) (line_number : Nat) (st1 : State),
        push always save
            { init with
              heap := [some ⟨4, some 1, none⟩, some ⟨7, none, some 0⟩], stack := some 1,
              mallocs := 2 }
            line_number = .running st1 →
        ∃ (a : Nat) (nd : stack_t), st1.stack = some a ∧ st1.heap[a]? = some (some nd) ∧
          nd.next = some 1 ∧ after_pushes always (2 + 1) st1) :=
  push_keeps_links always 2
    { init with
      heap := [some ⟨4, some 1, none⟩, some ⟨7, none, some 0⟩], stack := some 1, mallocs := 2 }
    (after_pushes.step 1
      { init with heap := [some ⟨4, none, none⟩], stack := some 0, mallocs := 1 } _
      "7".toList 2
      (after_pushes.step 0 init _ "4".toList 1 (after_pushes.empty init rfl) (by decide))
      (by decide))

/-! ## The stack at the exit of the process -/

theorem owned_init (b c : Bool) : owned { init with line := b, file := c } := by
  refine ⟨[], rfl, ?_⟩
  intro a nd h
  simp [init] at h

theorem released_of_release (heap : Heap) (as : List Nat)
    (h : ∀ (a : Nat) (nd : stack_t), heap[a]? = some (some nd) → a ∈ as) :
    ∀ c ∈ release heap as, c = none := by
  intro c hc
  obtain ⟨i, hi⟩ := List.mem_iff_getElem?.mp hc
  rw [release_getElem] at hi
  by_cases hmem : i ∈ as
  · rw [if_pos hmem] at hi
    cases hl : heap[i]? with
    | none => rw [hl] at hi; cases hi
    | some x =>
      rw [hl] at hi
      simp only [Option.map_some', Option.some.injEq] at hi
      exact hi.symm
  · rw [if_neg hmem] at hi
    cases c with
    | none => rfl
    | some nd => exact absurd (h i nd hi) hmem

theorem cleanup_exit_released (status : Int) (st : State) (h : owned st) :
    ∃ st1, cleanup_exit status st = .exited status st1 ∧ released st1 ∧
      st1.line = false ∧ st1.file = false := by
  obtain ⟨cs, hcs, hall⟩ := h
  exact ⟨_, cleanup_exit_chain status st cs hcs,
    ⟨rfl, released_of_release st.heap _ hall⟩, rfl, rfl⟩

theorem push_owned (avail : Nat → Bool) (save : CStr) (st st1 : State) (line_number : Nat)
    (h : owned st) (hp : push avail save st line_number = .running st1) : owned st1 := by
  obtain ⟨cs, hcs, hall⟩ := h
  obtain ⟨v, -, hlen, hstack, hnew, hold, hhead, -⟩ :=
    push_running_cells avail save st st1 line_number (chain_head_lt cs st.stack hcs) hp
  refine ⟨(st.heap.length, v) :: cs, ⟨hstack, ⟨v, none, st.stack⟩, hnew, rfl, ?_⟩, ?_⟩
  · refine is_chain_agree ?_ cs _ hcs
    intro a nd hnd
    by_cases hs : st.stack = some a
    · obtain ⟨nd1, hnd1, hcell⟩ := hhead a hs
      rw [hnd] at hnd1
      have hnn : nd = nd1 := Option.some.inj (Option.some.inj hnd1)
      subst hnn
      exact ⟨_, hcell, rfl, rfl⟩
    · have halt : a < st.heap.length := (List.getElem?_eq_some.mp hnd).1
      exact ⟨nd, by rw [hold a halt hs]; exact hnd, rfl, rfl⟩
  · intro a nd hnd
    have halt : a < st1.heap.length := (List.getElem?_eq_some.mp hnd).1
    rw [hlen] at halt
    rw [List.map_cons, List.mem_cons]
    by_cases hal : a = st.heap.length
    · exact Or.inl hal
    · right
      have halt1 : a < st.heap.length := by omega
      by_cases hs : st.stack = some a
      · cases cs with
        | nil =>
          have hn : st.stack = none := hcs
          rw [hn] at hs
          cases hs
        | cons c cs =>
          have hc : st.stack = some c.1 := hcs.1
          have hac : a = c.1 := Option.some.inj (hs.symm.trans hc)
          rw [hac]
          simp
      · rw [hold a halt1 hs] at hnd
        exact hall a nd hnd

theorem push_keeps (avail : Nat → Bool) (save : CStr) (st : State) (line_number : Nat)
    (h : owned st) : keeps_owned (push avail save st line_number) := by
  cases hr : push avail save st line_number with
  | running st1 => exact push_owned avail save st st1 line_number h hr
  | undefined st1 => trivial
  | exited a st1 =>
    obtain ⟨cs, hcs, hall⟩ := h
    obtain ⟨heap, stack, out, err, line, file, mallocs⟩ := st
    simp only at hcs hall
    simp only [push] at hr
    cases hv : atoi (strtok save).1 with
    | none =>
      rw [hv] at hr
      cases hr
    | some v =>
      rw [hv] at hr
      simp only [] at hr
      by_cases ha : avail mallocs = true
      · have hm : malloc avail ⟨heap, stack, out, err, line, file, mallocs⟩ =
            (some heap.length,
              ⟨heap ++ [some ⟨0, none, none⟩], stack, out, err, line, file, mallocs + 1⟩) := by
          simp [malloc, ha]
        rw [hm] at hr
        simp only [] at hr
        cases stack with
        | none => cases hr
        | some head =>
          simp only [] at hr
          split at hr <;> cases hr
      · have hm : malloc avail ⟨heap, stack, out, err, line, file, mallocs⟩ =
            (none, ⟨heap, stack, out, err, line, file, mallocs + 1⟩) := by
          simp [malloc, ha]
        rw [hm] at hr
        simp only [] at hr
        rw [free_stack_chain
          ⟨heap, stack, out, err ++ "Error: malloc failed\n", line, file, mallocs + 1⟩ cs hcs]
          at hr
        simp only [Result.exited.injEq] at hr
        obtain ⟨-, hr⟩ := hr
        subst hr
        exact ⟨rfl, released_of_release heap _ hall⟩
  | diverges st1 =>
    rcases push_cases avail save st line_number with ⟨s, hs⟩ | ⟨s, hs, -⟩ | ⟨s, hs, -⟩ <;>
      rw [hs] at hr <;> cases hr

theorem loop_body_keeps (avail : Nat → Bool) (st : State) (line_number : Nat)
    (line : List Char) (h : owned st) : keeps_owned (loop_body avail st line_number line) := by
  have hexit : ∀ s : State, s.heap = st.heap → s.stack = st.stack →
      keeps_owned (cleanup_exit 1 s) := by
    intro s h1 h2
    have hs : owned s := by
      obtain ⟨cs, hcs, hall⟩ := h
      exact ⟨cs, by rw [h1, h2]; exact hcs, by rw [h1]; exact hall⟩
    obtain ⟨s1, he, hrel, -⟩ := cleanup_exit_released 1 s hs
    rw [he]
    exact hrel
  rcases line_cases line with hn | ⟨opcode, hop, hc⟩
  · rw [loop_body_noop avail st line_number line hn]
    exact h
  · by_cases hpush : opcode = "push".toList
    · subst hpush
      cases h2 : second_token line with
      | none =>
        rw [loop_body_push_bad avail st line_number line hop (Or.inl h2)]
        exact hexit _ rfl rfl
      | some arg =>
        by_cases h3 : is_number (some arg) = 0
        · rw [loop_body_push_bad avail st line_number line hop (Or.inr (h2 ▸ h3))]
          exact hexit _ rfl rfl
        · rw [loop_body_push_good avail st line_number line arg hop h2 h3]
          exact push_keeps avail _ st line_number h
    · by_cases hpall : opcode = "pall".toList
      · subst hpall
        obtain ⟨cs, hcs, hall⟩ := h
        rw [loop_body_pall avail st line_number line hop, pall_chain st line_number cs hcs]
        exact ⟨cs, hcs, hall⟩
      · rw [loop_body_unknown avail st line_number line opcode hop hc hpush hpall]
        exact hexit _ rfl rfl

theorem main_loop_keeps (avail : Nat → Bool) :
    ∀ (lines : List (List Char)) (st : State) (line_number : Nat),
      owned st → keeps_owned (main_loop avail st line_number lines) := by
  intro lines
  induction lines with
  | nil => intro st line_number h; exact h
  | cons l lines ih =>
    intro st line_number h
    have hst : owned { st with line := true } := h
    have hb := loop_body_keeps avail { st with line := true }
      ((line_number + 1) % 4294967296) l hst
    simp only [main_loop]
    cases hr : loop_body avail { st with line := true } ((line_number + 1) % 4294967296) l with
    | running st1 =>
      rw [hr] at hb
      exact ih st1 _ hb
    | exited a st1 => rw [hr] at hb; exact hb
    | undefined st1 => trivial
    | diverges st1 => rw [hr] at hb; exact hb.elim

/-- C15: every run of the interpreter that ends in an exit of the process (the usage error, the
file that cannot be opened, the end of the input, an invalid `push` argument, an unknown
instruction, a failure of `malloc`) ends with the stack empty: the head is `NULL` and no node
is left allocated.  The only other way for a run to end is the undefined behaviour of `atoi` in
`push`; no run ends otherwise or goes on for ever. -/
theorem exit_releases (avail : Nat → Bool) (fopen : CStr → Option (List Char))
    (argv : List CStr) : exits_released (main avail fopen argv) := by
  unfold main
  by_cases hargc : argv.length ≠ 2
  · rw [if_pos hargc]
    exact ⟨rfl, fun c hc => by simp [init] at hc⟩
  · rw [if_neg hargc]
    cases hf : fopen (argv.getD 1 []) with
    | none => exact ⟨rfl, fun c hc => by simp [init] at hc⟩
    | some content =>
      simp only []
      have hk := main_loop_keeps avail (getlines content) { init with file := true } 0
        (owned_init false true)
      cases hr : main_loop avail { init with file := true } 0 (getlines content) with
      | running st =>
        rw [hr] at hk
        obtain ⟨st1, he, hrel, -⟩ := cleanup_exit_released 0 st hk
        simp only []
        rw [he]
        exact hrel
      | exited a st => rw [hr] at hk; exact hk
      | undefined st => trivial
      | diverges st => rw [hr] at hk; exact hk.elim

end Monty
